import Mathlib

/-!
Verification of the layered configuration-synthesis and candidate-selection
engine of the cline_autoupdate repository (src/adaptive_settings.py and
src/rules_generator.py).

Python values (JSON-like trees of dicts, lists and scalars) are embedded as
the inductive type `Val`.  Python dicts are insertion-ordered association
lists with unique keys; `dictGet`, `dictSet`, `dictGetD` and `dictUpdate`
mirror `d[k]`, `d[k] = v`, `d.get(k, default)` and `d.update(e)`.  Numbers
(ints and floats) are modelled as exact rationals: every numeric comparison
in the source compares a value of the form `n` or `n / 2^30` against a small
integer threshold, and such comparisons can never sit inside the rounding
error of IEEE double division for any integer byte count, so the rational
model decides every branch exactly as CPython does.  Fallible operations
(direct indexing `d[k]`, numeric coercion of non-numbers) are modelled in
`Option`, `none` marking a raised Python exception.
-/

inductive Val : Type where
  | num  (q : ℚ)
  | str  (s : String)
  | bool (b : Bool)
  | list (xs : List Val)
  | dict (entries : List (String × Val))
deriving Inhabited

abbrev Entries := List (String × Val)

/-- Read `d[k]`: the value at the first entry carrying key `k` (a Python
dict has unique keys, so the first entry is the entry). -/
def dictGet : Entries → String → Option Val
  | [], _ => none
  | (k, v) :: rest, key => if k = key then some v else dictGet rest key

/-- The membership test `k in d`. -/
def dictMem (d : Entries) (key : String) : Bool :=
  (dictGet d key).isSome

/-- Assignment `d[k] = v`: overwrite the entry in place when the key is
present, otherwise append a new entry at the end (Python insertion order). -/
def dictSet : Entries → String → Val → Entries
  | [], key, v => [(key, v)]
  | (k, w) :: rest, key, v =>
      if k = key then (k, v) :: rest else (k, w) :: dictSet rest key v

/-- `d.get(k, default)`. -/
def dictGetD (d : Entries) (key : String) (dfl : Val) : Val :=
  (dictGet d key).getD dfl

/-- `d.update(e)`: assign every entry of `e` into `d`, in order. -/
def dictUpdate (d e : Entries) : Entries :=
  e.foldl (fun acc kv => dictSet acc kv.1 kv.2) d

/-- The ordered list of keys of a dict. -/
def dictKeys (d : Entries) : List String := d.map Prod.fst

/-- A dict of the Lean model corresponds to a Python dict exactly when its
keys are pairwise distinct. -/
abbrev NodupKeys (d : Entries) : Prop := (dictKeys d).Nodup

mutual

/-- Embedding of `AdaptiveSettings._deep_copy`: rebuild dicts and lists
recursively, return every scalar as it is. -/
def deepCopy : Val → Val
  | .dict d => .dict (deepCopyEntries d)
  | .list xs => .list (deepCopyList xs)
  | v => v

/-- The dict comprehension of `_deep_copy`. -/
def deepCopyEntries : Entries → Entries
  | [] => []
  | (k, v) :: rest => (k, deepCopy v) :: deepCopyEntries rest

/-- The list comprehension of `_deep_copy`. -/
def deepCopyList : List Val → List Val
  | [] => []
  | v :: rest => deepCopy v :: deepCopyList rest

end

mutual

/-- Embedding of `AdaptiveSettings._merge_settings`: deep-copy the base,
then assign each entry of the update in order, recursing when both the
copied base and the update hold dicts at the key. -/
def mergeSettings (base upd : Entries) : Entries :=
  mergeLoop (deepCopyEntries base) upd
termination_by (sizeOf upd, 2)

/-- One iteration of the `for key, value in update.items()` loop of
`_merge_settings`: recursive merge when both sides hold dicts at the key,
otherwise assignment of a deep copy of the overlay value. -/
def mergeStep (result : Entries) (key : String) (value : Val) : Entries :=
  match dictGet result key, value with
  | some (.dict bsub), .dict usub =>
      dictSet result key (.dict (mergeSettings bsub usub))
  | _, _ =>
      dictSet result key (deepCopy value)
termination_by (sizeOf value, 0)

/-- The update loop of `_merge_settings`, acting on the accumulated
`result`. -/
def mergeLoop (result : Entries) : Entries → Entries
  | [] => result
  | (key, value) :: rest => mergeLoop (mergeStep result key value) rest
termination_by upd => (sizeOf upd, 1)

end

/-- Folding an ordered layer list into a start tree, as
`generate_adaptive_config` does merge after merge. -/
def foldMerge (start : Entries) (layers : List Entries) : Entries :=
  layers.foldl mergeSettings start

mutual

theorem deepCopy_eq : ∀ v : Val, deepCopy v = v
  | .num _ => rfl
  | .str _ => rfl
  | .bool _ => rfl
  | .list xs => by rw [deepCopy, deepCopyList_eq xs]
  | .dict d => by rw [deepCopy, deepCopyEntries_eq d]

theorem deepCopyEntries_eq : ∀ d : Entries, deepCopyEntries d = d
  | [] => rfl
  | (k, v) :: rest => by rw [deepCopyEntries, deepCopy_eq v, deepCopyEntries_eq rest]

theorem deepCopyList_eq : ∀ xs : List Val, deepCopyList xs = xs
  | [] => rfl
  | v :: rest => by rw [deepCopyList, deepCopy_eq v, deepCopyList_eq rest]

end

/-! ## Python semantics helpers -/

/-- Python truthiness of a value. -/
def truthy : Val → Bool
  | .num q => decide (q ≠ 0)
  | .str s => !s.isEmpty
  | .bool b => b
  | .list xs => !xs.isEmpty
  | .dict d => !d.isEmpty

/-- Truthiness of a `d.get(k)` result, `None` being falsy. -/
def optTruthy : Option Val → Bool
  | none => false
  | some v => truthy v

/-- Numeric coercion: `True`/`False` count as `1`/`0` in CPython arithmetic;
anything that is not a number raises, modelled as `none`. -/
def asNum : Val → Option ℚ
  | .num q => some q
  | .bool b => some (if b then 1 else 0)
  | _ => none

/-- Expect a list (iteration or indexing of anything else raises). -/
def asList : Val → Option (List Val)
  | .list xs => some xs
  | _ => none

/-- Expect a dict (attribute `.get`/`[]` access on anything else raises). -/
def asEntries : Val → Option Entries
  | .dict d => some d
  | _ => none

/-- Expect a string. -/
def asStr : Val → Option String
  | .str s => some s
  | _ => none

/-- The Python comparison `v == "lit"`: true exactly when `v` is that
string (no non-string value compares equal to a string). -/
def vEqStr (v : Val) (s : String) : Bool :=
  match v with
  | .str t => t == s
  | _ => false

/-- Key lookup in a static catalog given as an association list. -/
def lookupCatalog (cat : List (String × Entries)) (k : String) : Option Entries :=
  match cat with
  | [] => none
  | (k', v) :: rest => if k' = k then some v else lookupCatalog rest k

/-! ## The static catalogs of `AdaptiveSettings.__init__` -/

/-- The literal `default_settings` baseline. -/
def defaultSettings : Entries :=
  [("cline_settings", .dict [
    ("autoApprove", .bool false),
    ("alwaysAllowReadOnly", .bool true),
    ("alwaysAllowWriteOnly", .bool false),
    ("requestLimit", .num 25),
    ("contextWindow", .num 200000),
    ("maxResponseTokens", .num 8192),
    ("temperature", .num (1/10)),
    ("debugMode", .bool false),
    ("experimentalFeatures", .bool false),
    ("customInstructions", .str ""),
    ("preferredLanguage", .str "ru"),
    ("codeStyle", .dict [
      ("indentation", .num 4),
      ("quotes", .str "double"),
      ("semicolons", .bool true),
      ("trailingCommas", .bool true)]),
    ("performance", .dict [
      ("enableCaching", .bool true),
      ("maxCacheSize", .num 100),
      ("parallelProcessing", .bool false),
      ("memoryOptimization", .bool false)]),
    ("security", .dict [
      ("restrictFileAccess", .bool true),
      ("sanitizeInputs", .bool true),
      ("logSecurityEvents", .bool true)])])]

/-- The literal `project_specific_settings` catalog. -/
def projectSpecificSettings : List (String × Entries) :=
  [("python", [
      ("codeStyle", .dict [
        ("indentation", .num 4), ("quotes", .str "double"), ("lineLength", .num 88)]),
      ("linting", .dict [
        ("enableFlake8", .bool true), ("enableBlack", .bool true), ("enableMypy", .bool true)]),
      ("testing", .dict [
        ("framework", .str "pytest"), ("coverage", .bool true), ("autoDiscovery", .bool true)])]),
   ("javascript", [
      ("codeStyle", .dict [
        ("indentation", .num 2), ("quotes", .str "single"),
        ("semicolons", .bool false), ("trailingCommas", .bool true)]),
      ("linting", .dict [
        ("enableESLint", .bool true), ("enablePrettier", .bool true)]),
      ("build", .dict [
        ("enableSourceMaps", .bool true), ("minification", .bool true)])]),
   ("typescript", [
      ("codeStyle", .dict [
        ("indentation", .num 2), ("quotes", .str "single"),
        ("semicolons", .bool false), ("strictMode", .bool true)]),
      ("typeChecking", .dict [
        ("strict", .bool true), ("noImplicitAny", .bool true), ("strictNullChecks", .bool true)])]),
   ("web", [
      ("features", .dict [
        ("autoReload", .bool true), ("livePreview", .bool true), ("responsiveDesign", .bool true)]),
      ("optimization", .dict [
        ("imageOptimization", .bool true), ("cssMinification", .bool true), ("jsMinification", .bool true)])])]

/-- `performance_settings['high_memory']`. -/
def highMemorySettings : Entries :=
  [("contextWindow", .num 300000), ("maxResponseTokens", .num 12288),
   ("enableCaching", .bool true), ("maxCacheSize", .num 200),
   ("parallelProcessing", .bool true)]

/-- `performance_settings['low_memory']`. -/
def lowMemorySettings : Entries :=
  [("contextWindow", .num 100000), ("maxResponseTokens", .num 4096),
   ("enableCaching", .bool false), ("maxCacheSize", .num 50),
   ("parallelProcessing", .bool false), ("memoryOptimization", .bool true)]

/-- `performance_settings['high_cpu']`. -/
def highCpuSettings : Entries :=
  [("parallelProcessing", .bool true), ("backgroundProcessing", .bool true),
   ("optimizeAlgorithms", .bool true)]

/-- `performance_settings['low_cpu']`. -/
def lowCpuSettings : Entries :=
  [("parallelProcessing", .bool false), ("backgroundProcessing", .bool false),
   ("simpleAlgorithms", .bool true)]

/-! ## The layer selectors of `AdaptiveSettings` -/

/-- Embedding of `AdaptiveSettings._is_web_project`. -/
def isWebProject (projectStructure : Entries) : Option Bool := do
  let langs ← asList (dictGetD projectStructure "languages" (.list []))
  let fws ← asList (dictGetD projectStructure "frameworks" (.list []))
  let webIndicators := ["javascript", "typescript", "html", "css"]
  let webFrameworks := ["nodejs", "react", "vue", "angular"]
  some (langs.any (fun l => webIndicators.any (fun w => vEqStr l w)) ||
        fws.any (fun f => webFrameworks.any (fun w => vEqStr f w)))

/-- Embedding of `AdaptiveSettings._adapt_for_project_type`. -/
def adaptForProjectType (configData : Entries) : Option Entries := do
  let ps ← asEntries (dictGetD configData "project_structure" (.dict []))
  let projectType := dictGetD ps "project_type" (.str "unknown")
  let languagesV := dictGetD ps "languages" (.list [])
  let cline0 : Entries := []
  let cline1 ←
    if truthy languagesV then do
      let langs ← asList languagesV
      match langs with
      | [] => some cline0
      | primary :: _ =>
        match primary with
        | .str s =>
          match lookupCatalog projectSpecificSettings s with
          | some langSettings => some (dictUpdate cline0 langSettings)
          | none => some cline0
        | _ => some cline0
    else some cline0
  let cline2 :=
    match projectType with
    | .str s =>
      match lookupCatalog projectSpecificSettings s with
      | some typeSettings => dictUpdate cline1 typeSettings
      | none => cline1
    | _ => cline1
  let web ← isWebProject ps
  let cline3 :=
    if web then dictUpdate cline2 ((lookupCatalog projectSpecificSettings "web").getD [])
    else cline2
  some [("cline_settings", .dict cline3)]

/-- The `for issue in performance_issues` loop of `_adapt_for_performance`:
remediation overrides for high-severity memory and cpu issues. -/
def issuesLoop (cline : Entries) : List Val → Option Entries
  | [] => some cline
  | issue :: rest => do
      let d ← asEntries issue
      let t ← dictGet d "type"
      if vEqStr t "memory" then do
        let s ← dictGet d "severity"
        if vEqStr s "high" then
          issuesLoop (dictSet (dictSet cline "memoryOptimization" (.bool true))
                        "enableCaching" (.bool false)) rest
        else issuesLoop cline rest
      else if vEqStr t "cpu" then do
        let s ← dictGet d "severity"
        if vEqStr s "high" then
          issuesLoop (dictSet (dictSet cline "parallelProcessing" (.bool false))
                        "maxResponseTokens" (.num 4096)) rest
        else issuesLoop cline rest
      else issuesLoop cline rest

/-- Embedding of `AdaptiveSettings._adapt_for_performance`. -/
def adaptForPerformance (performanceData : Entries) : Option Entries := do
  let sm ← asEntries (dictGetD performanceData "system_metrics" (.dict []))
  let issuesV := dictGetD performanceData "performance_issues" (.list [])
  if !truthy (.dict sm) then
    some [("cline_settings", .dict [])]
  else do
    let memoryInfo ← asEntries (dictGetD sm "memory" (.dict []))
    let cpuInfo ← asEntries (dictGetD sm "cpu" (.dict []))
    let memoryPercent ← asNum (dictGetD memoryInfo "percent" (.num 0))
    let memoryTotal ← asNum (dictGetD memoryInfo "total" (.num 0))
    let memoryTotalGb := memoryTotal / 1024 ^ 3
    let cline1 :=
      if memoryPercent > 80 || memoryTotalGb < 4 then dictUpdate [] lowMemorySettings
      else if memoryTotalGb > 16 then dictUpdate [] highMemorySettings
      else []
    let cpuPercent ← asNum (dictGetD cpuInfo "percent" (.num 0))
    let cpuCount ← asNum (dictGetD cpuInfo "count" (.num 1))
    let cline2 :=
      if cpuPercent > 80 || cpuCount < 4 then dictUpdate cline1 lowCpuSettings
      else if cpuCount > 8 then dictUpdate cline1 highCpuSettings
      else cline1
    let issues ← asList issuesV
    let cline3 ← issuesLoop cline2 issues
    some [("cline_settings", .dict cline3)]

/-- Embedding of `AdaptiveSettings._adapt_for_project_scale`. -/
def adaptForProjectScale (configData : Entries) : Option Entries := do
  let ps ← asEntries (dictGetD configData "project_structure" (.dict []))
  let totalFiles ← asNum (dictGetD ps "total_files" (.num 0))
  let langs ← asList (dictGetD ps "languages" (.list []))
  let languagesCount : ℚ := langs.length
  let cline1 :=
    if totalFiles > 100 then
      dictUpdate [] [("requestLimit", .num 50), ("contextWindow", .num 250000),
                     ("enableCaching", .bool true), ("maxCacheSize", .num 150)]
    else if totalFiles > 50 then
      dictUpdate [] [("requestLimit", .num 35), ("contextWindow", .num 200000),
                     ("enableCaching", .bool true)]
    else
      dictUpdate [] [("requestLimit", .num 20), ("contextWindow", .num 150000)]
  if languagesCount > 2 then do
    let cw ← asNum (dictGetD cline1 "contextWindow" (.num 200000))
    some [("cline_settings", .dict (dictUpdate cline1
      [("contextWindow", .num (cw + 50000)), ("maxResponseTokens", .num 10240)]))]
  else
    some [("cline_settings", .dict cline1)]

/-- Embedding of `AdaptiveSettings._adapt_for_usage_patterns`. -/
def adaptForUsagePatterns (configData _performanceData : Entries) : Option Entries := do
  let up ← asEntries (dictGetD configData "usage_patterns" (.dict []))
  let sessionsCount ← asNum (dictGetD up "sessions_count" (.num 0))
  let cline1 :=
    if sessionsCount > 100 then
      dictUpdate [] [("autoApprove", .bool true), ("experimentalFeatures", .bool true),
                     ("debugMode", .bool false)]
    else if sessionsCount < 10 then
      dictUpdate [] [("autoApprove", .bool false), ("experimentalFeatures", .bool false),
                     ("debugMode", .bool true)]
    else []
  let errorPatterns ← asList (dictGetD up "error_patterns" (.list []))
  let cline2 :=
    if (errorPatterns.length : ℚ) > 10 then
      dictUpdate cline1 [("temperature", .num (1/20)),
        ("security", .dict [("restrictFileAccess", .bool true), ("sanitizeInputs", .bool true)])]
    else cline1
  some [("cline_settings", .dict cline2)]

/-- Embedding of `AdaptiveSettings._preserve_user_settings`. -/
def preserveUserSettings (configData : Entries) : Option Entries := do
  let vs ← asEntries (dictGetD configData "vscode_settings" (.dict []))
  let cur ← asEntries (dictGetD vs "cline_settings" (.dict []))
  let preserveKeys := ["customInstructions", "preferredLanguage", "autoApprove"]
  let u := preserveKeys.foldl (fun acc k =>
    match dictGet cur k with
    | some v => dictSet acc k v
    | none => acc) []
  some [("cline_settings", .dict u)]

/-- Embedding of `AdaptiveSettings._generate_vscode_config`. -/
def generateVscodeConfig (adaptiveConfig : Entries) (configData : Entries) : Option Entries := do
  let ps ← asEntries (dictGetD configData "project_structure" (.dict []))
  let langs ← asList (dictGetD ps "languages" (.list []))
  let vc1 :=
    if langs.any (fun l => vEqStr l "python") then
      dictUpdate [] [
        ("python.defaultInterpreterPath", .str "./venv/bin/python"),
        ("python.linting.enabled", .bool true),
        ("python.linting.pylintEnabled", .bool true),
        ("python.formatting.provider", .str "black"),
        ("python.testing.pytestEnabled", .bool true)]
    else []
  let vc2 :=
    if langs.any (fun l => vEqStr l "javascript") || langs.any (fun l => vEqStr l "typescript") then
      dictUpdate vc1 [
        ("eslint.enable", .bool true),
        ("prettier.enable", .bool true),
        ("javascript.preferences.includePackageJsonAutoImports", .str "auto"),
        ("typescript.preferences.includePackageJsonAutoImports", .str "auto")]
    else vc1
  let cs ← asEntries (dictGetD adaptiveConfig "cline_settings" (.dict []))
  let codeStyleV := dictGetD cs "codeStyle" (.dict [])
  let vc3 ←
    if truthy codeStyleV then do
      let csty ← asEntries codeStyleV
      some (dictUpdate vc2 [
        ("editor.tabSize", dictGetD csty "indentation" (.num 4)),
        ("editor.insertSpaces", .bool true),
        ("editor.detectIndentation", .bool false)])
    else some vc2
  let perf ← asEntries (dictGetD cs "performance" (.dict []))
  let vc4 :=
    if optTruthy (dictGet perf "memoryOptimization") then
      dictUpdate vc3 [
        ("typescript.disableAutomaticTypeAcquisition", .bool true),
        ("search.followSymlinks", .bool false),
        ("files.watcherExclude", .dict [
          ("**/.git/objects/**", .bool true),
          ("**/.git/subtree-cache/**", .bool true),
          ("**/node_modules/**", .bool true),
          ("**/.hg/store/**", .bool true)])]
    else vc3
  some vc4

/-- Embedding of `AdaptiveSettings.generate_adaptive_config`: copy the
defaults, fold the five computed layers with `_merge_settings`, and union
the derived editor settings into the result. -/
def generateAdaptiveConfig (configData performanceData : Entries) : Option Entries := do
  let c0 := deepCopyEntries defaultSettings
  let p1 ← adaptForProjectType configData
  let c1 := mergeSettings c0 p1
  let p2 ← adaptForPerformance performanceData
  let c2 := mergeSettings c1 p2
  let p3 ← adaptForProjectScale configData
  let c3 := mergeSettings c2 p3
  let p4 ← adaptForUsagePatterns configData performanceData
  let c4 := mergeSettings c3 p4
  let p5 ← preserveUserSettings configData
  let c5 := mergeSettings c4 p5
  let vc ← generateVscodeConfig c5 configData
  some (dictUpdate c5 vc)

/-! ## String helpers for the rules generator

Python `str.lower()` is modelled by `String.toLower` (exact on the ASCII
letters the claims exercise; the Russian catalog text is already lower-case
wherever a keyword is matched against it), `str.strip()` by `String.trim`,
and the containment test `pat in s` by contiguous-substring search. -/

/-- Lower-casing of one character: ASCII `A`-`Z` and Cyrillic `А`-`Я`/`Ё`
(the only alphabets occurring in this repository's text) map to their
lower-case forms, as CPython's `str.lower` does. -/
def pyLowerChar (c : Char) : Char :=
  if 'A' ≤ c ∧ c ≤ 'Z' then Char.ofNat (c.toNat + 32)
  else if 0x410 ≤ c.toNat ∧ c.toNat ≤ 0x42F then Char.ofNat (c.toNat + 32)
  else if c.toNat = 0x401 then Char.ofNat 0x451
  else c

/-- Model of `s.lower()`: lower-case every character. -/
def pyLower (s : String) : String := String.mk (s.data.map pyLowerChar)

/-- Model of `s.strip()`: drop leading and trailing whitespace. -/
def pyStrip (s : String) : String :=
  String.mk
    (((s.data.dropWhile Char.isWhitespace).reverse.dropWhile Char.isWhitespace).reverse)

/-- The dedup key `rule.lower().strip()` of `_remove_duplicates`. -/
def canon (s : String) : String := pyStrip (pyLower s)

/-- Contiguous substring search over character lists. -/
def containsSub (pat : List Char) : List Char → Bool
  | [] => pat.isEmpty
  | c :: rest => pat.isPrefixOf (c :: rest) || containsSub pat rest

/-- The Python substring test `pat in s`. -/
def strIn (pat s : String) : Bool := containsSub pat.data s.data

/-! ## The static catalogs of `RulesGenerator.__init__` -/

/-- `base_rules['general']`. -/
def baseRulesGeneral : List String :=
  ["Всегда используй понятные и описательные имена для переменных, функций и классов",
   "Добавляй комментарии для сложных алгоритмов и бизнес-логики",
   "Следуй принципам SOLID при разработке",
   "Избегай дублирования кода (DRY принцип)",
   "Используй константы вместо магических чисел"]

/-- `base_rules['security']`. -/
def baseRulesSecurity : List String :=
  ["Никогда не храни пароли и секретные ключи в коде",
   "Всегда валидируй пользовательский ввод",
   "Используй HTTPS для всех внешних запросов",
   "Логируй события безопасности",
   "Применяй принцип минимальных привилегий"]

/-- `base_rules['performance']`. -/
def baseRulesPerformance : List String :=
  ["Оптимизируй циклы и избегай излишней вложенности",
   "Используй кеширование для дорогостоящих операций",
   "Применяй ленивую загрузку где это возможно",
   "Минимизируй количество запросов к базе данных",
   "Профилируй код при подозрении на узкие места"]

/-- `base_rules['testing']`. -/
def baseRulesTesting : List String :=
  ["Пиши unit-тесты для всех публичных методов",
   "Стремись к покрытию тестами не менее 80%",
   "Используй моки для внешних зависимостей",
   "Группируй тесты логически по модулям",
   "Тестируй граничные случаи и ошибки"]

/-- `base_rules['documentation']`. -/
def baseRulesDocumentation : List String :=
  ["Пиши docstrings для всех публичных функций и классов",
   "Обновляй README.md при значимых изменениях",
   "Документируй API endpoints с примерами",
   "Веди changelog для релизов",
   "Добавляй инлайн-комментарии для неочевидного кода"]

/-- The `base_rules` dict, in insertion order. -/
def baseRules : List (String × List String) :=
  [("general", baseRulesGeneral), ("security", baseRulesSecurity),
   ("performance", baseRulesPerformance), ("testing", baseRulesTesting),
   ("documentation", baseRulesDocumentation)]

/-- The `language_specific_rules` catalog. -/
def languageSpecificRules : List (String × List String) :=
  [("python",
    ["Следуй PEP 8 для стиля кода",
     "Используй type hints для всех функций",
     "Применяй list/dict comprehensions где уместно",
     "Обрабатывай исключения специфично, избегай голого except",
     "Используй f-strings для форматирования строк",
     "Применяй dataclasses для структур данных",
     "Используй pathlib вместо os.path для работы с путями"]),
   ("javascript",
    ["Используй const/let вместо var",
     "Применяй строгий режим 'use strict'",
     "Используй async/await вместо промисов где возможно",
     "Применяй деструктуризацию объектов и массивов",
     "Используй модульную систему ES6",
     "Проверяй типы с помощью TypeScript или JSDoc"]),
   ("typescript",
    ["Всегда указывай типы для параметров и возвращаемых значений",
     "Используй интерфейсы для описания структур данных",
     "Применяй generic типы для переиспользуемого кода",
     "Избегай any типа, используй unknown вместо него",
     "Используй enum для перечислений",
     "Применяй strict режим в tsconfig.json"]),
   ("java",
    ["Следуй соглашениям по именованию Java",
     "Используй аннотации для метаданных",
     "Применяй Stream API для обработки коллекций",
     "Используй Optional для значений, которые могут быть null",
     "Следуй принципам объектно-ориентированного программирования",
     "Применяй паттерн Builder для сложных объектов"]),
   ("rust",
    ["Используй Result<T, E> для обработки ошибок",
     "Применяй match для pattern matching",
     "Избегай паники (panic!) в библиотечном коде",
     "Используй References и Borrowing правильно",
     "Применяй трейты для полиморфизма",
     "Следуй принципам zero-cost abstractions"])]

/-- The `framework_rules` catalog. -/
def frameworkRules : List (String × List String) :=
  [("react",
    ["Используй функциональные компоненты с хуками",
     "Применяй useCallback и useMemo для оптимизации",
     "Следуй принципу единственной ответственности для компонентов",
     "Используй prop-types или TypeScript для типизации",
     "Применяй условный рендеринг осознанно"]),
   ("django",
    ["Используй Django ORM вместо сырого SQL",
     "Применяй миграции для изменения схемы БД",
     "Используй Django Forms для валидации",
     "Применяй middleware для кросс-функциональных задач",
     "Следуй MTV паттерну Django"]),
   ("flask",
    ["Используй Blueprints для организации приложения",
     "Применяй декораторы для авторизации",
     "Используй Flask-SQLAlchemy для работы с БД",
     "Валидируй данные с помощью Marshmallow или WTForms",
     "Применяй application factory pattern"])]

/-- Generic key lookup in a static string-keyed catalog. -/
def lookupAssoc {α : Type} : List (String × α) → String → Option α
  | [], _ => none
  | (k', v) :: rest, k => if k' = k then some v else lookupAssoc rest k

/-! ## The selection functions of `RulesGenerator` -/

/-- Embedding of `RulesGenerator._is_web_project`. -/
def isWebProjectRules (configData : Entries) : Option Bool := do
  let ps ← asEntries (dictGetD configData "project_structure" (.dict []))
  let langs ← asList (dictGetD ps "languages" (.list []))
  let fws ← asList (dictGetD ps "frameworks" (.list []))
  let pool := langs ++ fws
  let webIndicators := ["javascript", "typescript", "nodejs", "react", "vue", "angular"]
  some (webIndicators.any (fun w => pool.any (fun v => vEqStr v w)))

/-- Embedding of `RulesGenerator._has_tests`. -/
def hasTests (configData : Entries) : Option Bool := do
  let ps ← asEntries (dictGetD configData "project_structure" (.dict []))
  let fc ← asEntries (dictGetD ps "file_counts" (.dict []))
  let testIndicators := [".test.", ".spec.", "_test.", "test_", "tests/"]
  some ((dictKeys fc).any (fun p => testIndicators.any (fun ind => strIn ind p)))

/-- Embedding of `RulesGenerator._select_base_rules`. -/
def selectBaseRules (configData performanceData : Entries) : Option (List String) := do
  let s1 := baseRulesGeneral.take 3
  let web ← isWebProjectRules configData
  let s2 := if web then s1 ++ baseRulesSecurity.take 3 else s1
  let issuesV := dictGetD performanceData "performance_issues" (.list [])
  let s3 := if truthy issuesV then s2 ++ baseRulesPerformance.take 2 else s2
  let hasT ← hasTests configData
  let s4 :=
    if hasT then s3 ++ baseRulesTesting.take 3
    else s3 ++ ["Создавай тесты для критически важного функционала"]
  some (s4 ++ baseRulesDocumentation.take 2)

/-- Embedding of `RulesGenerator._select_language_rules`. -/
def selectLanguageRules (configData : Entries) : Option (List String) := do
  let ps ← asEntries (dictGetD configData "project_structure" (.dict []))
  let langs ← asList (dictGetD ps "languages" (.list []))
  some (langs.foldl (fun acc l =>
    match l with
    | .str s =>
      match lookupAssoc languageSpecificRules s with
      | some rs => acc ++ rs.take 5
      | none => acc
    | _ => acc) [])

/-- Embedding of `RulesGenerator._detect_specific_frameworks` (always empty). -/
def detectSpecificFrameworks (_configData : Entries) : List Val := []

/-- Embedding of `RulesGenerator._select_framework_rules`. -/
def selectFrameworkRules (configData : Entries) : Option (List String) := do
  let ps ← asEntries (dictGetD configData "project_structure" (.dict []))
  let fws ← asList (dictGetD ps "frameworks" (.list []))
  let pool := fws ++ detectSpecificFrameworks configData
  some (pool.foldl (fun acc f =>
    match f with
    | .str s =>
      match lookupAssoc frameworkRules s with
      | some rs => acc ++ rs.take 3
      | none => acc
    | _ => acc) [])

/-- The `for issue in perf_issues` loop of `_generate_adaptive_rules`. -/
def adaptiveRulesLoop (acc : List String) : List Val → Option (List String)
  | [] => some acc
  | issue :: rest => do
      let d ← asEntries issue
      let t ← dictGet d "type"
      if vEqStr t "memory" then
        adaptiveRulesLoop (acc ++
          ["Освобождай неиспользуемые ресурсы и закрывай соединения",
           "Используй генераторы вместо списков для больших данных",
           "Мониторь использование памяти в критических частях кода"]) rest
      else if vEqStr t "cpu" then
        adaptiveRulesLoop (acc ++
          ["Оптимизируй алгоритмы с высокой вычислительной сложностью",
           "Используй многопоточность для CPU-интенсивных задач",
           "Кеширyй результаты дорогостоящих вычислений"]) rest
      else adaptiveRulesLoop acc rest

/-- Embedding of `RulesGenerator._generate_adaptive_rules`. -/
def generateAdaptiveRules (performanceData : Entries) : Option (List String) := do
  let issues ← asList (dictGetD performanceData "performance_issues" (.list []))
  let r1 ← adaptiveRulesLoop [] issues
  let errorPatterns := dictGetD performanceData "error_patterns" (.list [])
  some (if truthy errorPatterns then
          r1 ++ ["Обрабатывай исключения на уровне приложения, не игнорируй их"]
        else r1)

/-- The flattened catalog walked by `_is_custom_rule`. -/
def allBaseRules : List String :=
  (baseRules.map Prod.snd).flatten ++
  (languageSpecificRules.map Prod.snd).flatten ++
  (frameworkRules.map Prod.snd).flatten

/-- Embedding of `RulesGenerator._is_custom_rule`. -/
def isCustomRule (rule : String) : Bool :=
  allBaseRules.all (fun b => !(canon rule == canon b))

/-- Embedding of `RulesGenerator._preserve_custom_rules`. -/
def preserveCustomRules (configData : Entries) : Option (List String) := do
  let cr ← asEntries (dictGetD configData "current_rules" (.dict []))
  if optTruthy (dictGet cr "exists") && optTruthy (dictGet cr "content") then do
    let contentV ← dictGet cr "content"
    let content ← asStr contentV
    some ((content.splitOn "\n").foldl (fun acc rawLine =>
      let line := pyStrip rawLine
      if !line.isEmpty && !(line.startsWith "#") && isCustomRule line
      then acc ++ [line] else acc) [])
  else some []

/-- Embedding of `RulesGenerator._remove_duplicates`: keep the first
occurrence of each lower-cased, trimmed text, in input order.  The `seen`
set is carried as the list of keys already added. -/
def removeDuplicates (rules : List String) : List String :=
  (rules.foldl (fun st rule =>
      let ruleLower := canon rule
      if st.1.contains ruleLower then st
      else (ruleLower :: st.1, st.2 ++ [rule]))
    (([], []) : List String × List String)).2

/-- Embedding of the `rule_priority` key function of `_prioritize_rules`. -/
def rulePriority (rule : String) : ℕ :=
  let rl := pyLower rule
  if ["security", "пароль", "ключ", "auth"].any (fun kw => strIn kw rl) then 1
  else if ["test", "тест", "качество"].any (fun kw => strIn kw rl) then 2
  else if ["performance", "производительность", "оптимиз"].any (fun kw => strIn kw rl) then 3
  else if ["style", "стиль", "комментар", "документ"].any (fun kw => strIn kw rl) then 4
  else 5

/-- Stable insertion: place `x` behind every already-placed element whose
priority does not exceed its own. -/
def insertByPriority (x : String) : List String → List String
  | [] => [x]
  | y :: ys =>
      if rulePriority y ≤ rulePriority x then y :: insertByPriority x ys
      else x :: y :: ys

/-- Embedding of `RulesGenerator._prioritize_rules`: Python's `sorted` is a
stable sort by `rule_priority`, realised here as stable insertion sort. -/
def prioritizeRules (rules : List String) (_configData : Entries) : List String :=
  rules.foldl (fun acc x => insertByPriority x acc) []

/-- Interpolation `str(v)` of a value into an f-string.  The snapshots the
claims exercise only ever interpolate strings; rendering of other values is
outside the model. -/
def pyFmt : Val → Option String
  | .str s => some s
  | _ => none

/-- The interpolation of `', '.join(xs)`. -/
def joinComma (xs : List Val) : Option String := do
  let ss ← xs.mapM asStr
  some (String.intercalate ", " ss)

/-- The category keyword classifier of `_format_rules_file`. -/
def ruleCategory (rule : String) : String :=
  let rl := pyLower rule
  if ["security", "безопас", "пароль", "ключ"].any (fun kw => strIn kw rl) then "Безопасность"
  else if ["test", "тест"].any (fun kw => strIn kw rl) then "Тестирование"
  else if ["performance", "производительность", "оптимиз"].any (fun kw => strIn kw rl) then "Производительность"
  else if ["doc", "документ", "комментар"].any (fun kw => strIn kw rl) then "Документация"
  else if ["style", "стиль", "format", "качество"].any (fun kw => strIn kw rl) then "Качество кода"
  else "Общие правила"

/-- The fixed insertion order of the `categories` dict in
`_format_rules_file`. -/
def categoriesOrder : List String :=
  ["Безопасность", "Качество кода", "Производительность", "Тестирование",
   "Документация", "Общие правила"]

/-- Embedding of `RulesGenerator._format_rules_file`; `now` stands for the
`datetime.now()` timestamp text. -/
def formatRulesFile (rules : List String) (configData : Entries) (now : String) :
    Option String := do
  let lines0 := ["# Правила Cline для проекта", "# Автогенерированно: " ++ now, ""]
  let pi ← asEntries (dictGetD configData "project_structure" (.dict []))
  let ptOpt := dictGet pi "project_type"
  let lines1 ←
    if !(match ptOpt with | some v => vEqStr v "unknown" | none => false) then do
      let v ← dictGet pi "project_type"
      let s ← pyFmt v
      pure (lines0 ++ ["# Тип проекта: " ++ s])
    else pure lines0
  let lines2 ←
    if optTruthy (dictGet pi "languages") then do
      let lv ← dictGet pi "languages"
      let ls ← asList lv
      let j ← joinComma ls
      pure (lines1 ++ ["# Языки: " ++ j])
    else pure lines1
  let lines3 ←
    if optTruthy (dictGet pi "frameworks") then do
      let fv ← dictGet pi "frameworks"
      let fs ← asList fv
      let j ← joinComma fs
      pure (lines2 ++ ["# Фреймворки: " ++ j])
    else pure lines2
  let lines4 := lines3 ++ [""]
  let lines5 := categoriesOrder.foldl (fun acc cat =>
    let catRules := rules.filter (fun r => ruleCategory r == cat)
    if catRules.isEmpty then acc
    else acc ++ ["## " ++ cat, ""] ++ catRules.map (fun r => "- " ++ r) ++ [""]) lines4
  some (String.intercalate "\n" lines5)

/-- Embedding of `RulesGenerator.generate_improved_rules`. -/
def generateImprovedRules (configData performanceData : Entries) (now : String) :
    Option String := do
  let s1 ← selectBaseRules configData performanceData
  let s2 ← selectLanguageRules configData
  let s3 ← selectFrameworkRules configData
  let s4 ← generateAdaptiveRules performanceData
  let s5 ← preserveCustomRules configData
  let selected := s1 ++ s2 ++ s3 ++ s4 ++ s5
  let deduped := removeDuplicates selected
  let sorted := prioritizeRules deduped configData
  formatRulesFile sorted configData now

/-! ## Well-formed values

A dict of the model corresponds to a Python dict exactly when every dict
nested inside it (through dict values) has pairwise-distinct keys.  Lists
are never descended into by the merge, so their contents are unconstrained. -/

mutual

/-- Every dict reachable through dict values has pairwise-distinct keys. -/
def wfVal : Val → Bool
  | .dict d => decide (NodupKeys d) && wfEntries d
  | _ => true

/-- All values of an entry list are well-formed. -/
def wfEntries : Entries → Bool
  | [] => true
  | (_, v) :: rest => wfVal v && wfEntries rest

end

/-- A well-formed dict: distinct keys and well-formed values, recursively. -/
def wfDict (d : Entries) : Bool := decide (NodupKeys d) && wfEntries d

theorem wfVal_dict (d : Entries) : wfVal (.dict d) = wfDict d := rfl

theorem wfDict_nodup {d : Entries} (h : wfDict d = true) : NodupKeys d := by
  simp [wfDict] at h; exact h.1

theorem wfEntries_mem : ∀ {d : Entries}, wfEntries d = true →
    ∀ {k : String} {v : Val}, (k, v) ∈ d → wfVal v = true := by
  intro d
  induction d with
  | nil => intro _ k v hv; cases hv
  | cons p rest ih =>
    intro h k v hv
    obtain ⟨pk, pv⟩ := p
    rw [wfEntries] at h
    simp only [Bool.and_eq_true] at h
    rcases List.mem_cons.mp hv with h1 | h1
    · cases h1; exact h.1
    · exact ih h.2 h1

theorem wfDict_mem {d : Entries} (h : wfDict d = true)
    {k : String} {v : Val} (hv : (k, v) ∈ d) : wfVal v = true := by
  simp only [wfDict, Bool.and_eq_true] at h
  exact wfEntries_mem h.2 hv

/-! ## Basic dictionary lemmas -/

theorem dictGet_dictSet_self (d : Entries) (k : String) (v : Val) :
    dictGet (dictSet d k v) k = some v := by
  induction d with
  | nil => simp [dictSet, dictGet]
  | cons p rest ih =>
    obtain ⟨pk, pv⟩ := p
    by_cases h : pk = k
    · simp [dictSet, dictGet, h]
    · simp [dictSet, dictGet, h, ih]

theorem dictGet_dictSet_ne (d : Entries) {k key : String} (h : k ≠ key) (v : Val) :
    dictGet (dictSet d k v) key = dictGet d key := by
  induction d with
  | nil => simp [dictSet, dictGet, h]
  | cons p rest ih =>
    obtain ⟨pk, pv⟩ := p
    by_cases hp : pk = k
    · subst hp; simp [dictSet, dictGet, h, ih]
    · simp [dictSet, dictGet, hp, ih]

theorem dictGet_none_of_not_mem : ∀ {d : Entries} {key : String},
    key ∉ dictKeys d → dictGet d key = none := by
  intro d
  induction d with
  | nil => intro key _; rfl
  | cons p rest ih =>
    intro key h
    obtain ⟨pk, pv⟩ := p
    simp only [dictKeys, List.map_cons, List.mem_cons, not_or] at h
    have hne : pk ≠ key := fun hx => h.1 hx.symm
    rw [dictGet, if_neg hne]
    exact ih (by simpa [dictKeys] using h.2)

theorem not_mem_of_dictGet_none : ∀ {d : Entries} {key : String},
    dictGet d key = none → key ∉ dictKeys d := by
  intro d
  induction d with
  | nil => intro key _ h; simp [dictKeys] at h
  | cons p rest ih =>
    intro key h
    obtain ⟨pk, pv⟩ := p
    rw [dictGet] at h
    by_cases hp : pk = key
    · simp [hp] at h
    · rw [if_neg hp] at h
      simp only [dictKeys, List.map_cons, List.mem_cons, not_or]
      exact ⟨fun hx => hp hx.symm, by simpa [dictKeys] using ih h⟩

theorem mem_of_dictGet_eq_some : ∀ {d : Entries} {key : String} {v : Val},
    dictGet d key = some v → (key, v) ∈ d := by
  intro d
  induction d with
  | nil => intro key v h; cases h
  | cons p rest ih =>
    intro key v h
    obtain ⟨pk, pv⟩ := p
    rw [dictGet] at h
    by_cases hp : pk = key
    · subst hp; simp at h; subst h; exact List.mem_cons_self _ _
    · simp only [hp, if_false] at h
      exact List.mem_cons_of_mem _ (ih h)

theorem dictGet_isSome_of_mem : ∀ {d : Entries} {key : String} {v : Val},
    (key, v) ∈ d → (dictGet d key).isSome := by
  intro d
  induction d with
  | nil => intro key v h; cases h
  | cons p rest ih =>
    intro key v h
    obtain ⟨pk, pv⟩ := p
    rcases List.mem_cons.mp h with h1 | h1
    · cases h1; simp [dictGet]
    · by_cases hp : pk = key
      · simp [dictGet, hp]
      · simpa [dictGet, hp] using ih h1

theorem dictGet_eq_some_of_mem_nodup : ∀ {d : Entries}, NodupKeys d →
    ∀ {key : String} {v : Val}, (key, v) ∈ d → dictGet d key = some v := by
  intro d
  induction d with
  | nil => intro _ key v h; cases h
  | cons p rest ih =>
    intro hn key v h
    obtain ⟨pk, pv⟩ := p
    simp only [NodupKeys, dictKeys, List.map_cons, List.nodup_cons] at hn
    rcases List.mem_cons.mp h with h1 | h1
    · cases h1; simp [dictGet]
    · have hne : pk ≠ key := by
        intro he; subst he
        exact hn.1 (List.mem_map.mpr ⟨(pk, v), h1, rfl⟩)
      simpa [dictGet, hne] using ih hn.2 h1

theorem dictSet_same {d : Entries} {k : String} {v : Val}
    (h : dictGet d k = some v) : dictSet d k v = d := by
  induction d with
  | nil => cases h
  | cons p rest ih =>
    obtain ⟨pk, pv⟩ := p
    rw [dictGet] at h
    by_cases hp : pk = k
    · simp only [hp, if_true] at h
      cases h; simp [dictSet, hp]
    · simp only [hp, if_false] at h
      simp [dictSet, hp, ih h]

theorem dictKeys_dictSet_mem {d : Entries} {k : String}
    (h : k ∈ dictKeys d) (v : Val) : dictKeys (dictSet d k v) = dictKeys d := by
  induction d with
  | nil => simp [dictKeys] at h
  | cons p rest ih =>
    obtain ⟨pk, pv⟩ := p
    by_cases hp : pk = k
    · simp [dictSet, hp, dictKeys]
    · have h2 : k ∈ dictKeys rest := by
        simp only [dictKeys, List.map_cons, List.mem_cons] at h
        rcases h with h | h
        · exact absurd h.symm hp
        · exact h
      rw [dictSet, if_neg hp]
      show pk :: dictKeys (dictSet rest k v) = pk :: dictKeys rest
      rw [ih h2]

theorem dictKeys_dictSet_not_mem {d : Entries} {k : String}
    (h : k ∉ dictKeys d) (v : Val) : dictKeys (dictSet d k v) = dictKeys d ++ [k] := by
  induction d with
  | nil => simp [dictSet, dictKeys]
  | cons p rest ih =>
    obtain ⟨pk, pv⟩ := p
    simp only [dictKeys, List.map_cons, List.mem_cons, not_or] at h
    have hne : pk ≠ k := fun hx => h.1 hx.symm
    rw [dictSet, if_neg hne]
    show pk :: dictKeys (dictSet rest k v) = pk :: (dictKeys rest ++ [k])
    rw [ih (by simpa [dictKeys] using h.2)]

/-! ## Per-key characterization of the merge -/

/-- The value the merge produces at one key, given the base value and the
overlay value at that key (`none` = key absent).  This is the content of
the `if`/`else` of `_merge_settings` seen through one key. -/
def combine (a b : Option Val) : Option Val :=
  match b with
  | none => a
  | some u =>
    match a, u with
    | some (.dict b2), .dict u2 => some (.dict (mergeSettings b2 u2))
    | _, _ => some u

theorem combine_none_right (a : Option Val) : combine a none = a := rfl

theorem combine_some_eq (a : Option Val) (u : Val) :
    combine a (some u) =
      match a, u with
      | some (.dict b2), .dict u2 => some (.dict (mergeSettings b2 u2))
      | _, _ => some u := rfl

/-- Whether a value is a mapping (`isinstance(v, dict)`). -/
def isDictV : Val → Bool
  | .dict _ => true
  | _ => false

theorem combine_some_nondict {u : Val} (h : isDictV u = false) (a : Option Val) :
    combine a (some u) = some u := by
  rw [combine_some_eq]
  split
  · simp [isDictV] at h
  · rfl

theorem combine_dict_dict (b u : Entries) (a : Option Val) (h : a = some (.dict b)) :
    combine a (some (.dict u)) = some (.dict (mergeSettings b u)) := by
  rw [h, combine_some_eq]

theorem combine_some_inv {a : Option Val} {u v : Val}
    (h : combine a (some u) = some v) :
    (∃ b2 u2, a = some (.dict b2) ∧ u = .dict u2 ∧ v = .dict (mergeSettings b2 u2)) ∨
      v = u := by
  rw [combine_some_eq] at h
  revert h
  split
  · intro h
    cases h
    exact Or.inl ⟨_, _, rfl, rfl, rfl⟩
  · intro h
    cases h
    exact Or.inr rfl

theorem mergeStep_get_self (res : Entries) (k : String) (v : Val) :
    dictGet (mergeStep res k v) k = combine (dictGet res k) (some v) := by
  rcases hres : dictGet res k with _ | w
  · cases v <;> simp [mergeStep, combine, hres, dictGet_dictSet_self, deepCopy_eq]
  · cases w <;> cases v <;>
      simp [mergeStep, combine, hres, dictGet_dictSet_self, deepCopy_eq]

theorem mergeStep_get_ne (res : Entries) {k key : String} (h : k ≠ key) (v : Val) :
    dictGet (mergeStep res k v) key = dictGet res key := by
  rcases hres : dictGet res k with _ | w
  · cases v <;> simp [mergeStep, hres, dictGet_dictSet_ne _ h]
  · cases w <;> cases v <;> simp [mergeStep, hres, dictGet_dictSet_ne _ h]

theorem dictGet_mergeLoop_none : ∀ {upd : Entries} {key : String},
    dictGet upd key = none →
    ∀ res : Entries, dictGet (mergeLoop res upd) key = dictGet res key := by
  intro upd
  induction upd with
  | nil => intro key _ res; rw [mergeLoop]
  | cons p rest ih =>
    intro key h res
    obtain ⟨k0, v0⟩ := p
    rw [dictGet] at h
    by_cases hp : k0 = key
    · simp [hp] at h
    · rw [if_neg hp] at h
      rw [mergeLoop, ih h, mergeStep_get_ne _ hp]

theorem dictGet_mergeLoop : ∀ {upd : Entries}, NodupKeys upd →
    ∀ (res : Entries) (key : String),
    dictGet (mergeLoop res upd) key = combine (dictGet res key) (dictGet upd key) := by
  intro upd
  induction upd with
  | nil =>
    intro _ res key
    rw [mergeLoop, dictGet, combine_none_right]
  | cons p rest ih =>
    intro hn res key
    obtain ⟨k0, v0⟩ := p
    obtain ⟨hk0, hn2⟩ := List.nodup_cons.mp hn
    rw [mergeLoop]
    by_cases hp : k0 = key
    · subst hp
      have hrest : dictGet rest k0 = none := dictGet_none_of_not_mem hk0
      rw [dictGet_mergeLoop_none hrest, mergeStep_get_self, dictGet, if_pos rfl]
    · rw [ih hn2 _ key, mergeStep_get_ne _ hp, dictGet, if_neg hp]

/-- The per-key characterization of `_merge_settings`: at each key the
merged tree holds `combine` of the two sides' values there. -/
theorem dictGet_mergeSettings {upd : Entries} (hn : NodupKeys upd)
    (base : Entries) (key : String) :
    dictGet (mergeSettings base upd) key = combine (dictGet base key) (dictGet upd key) := by
  rw [mergeSettings, deepCopyEntries_eq, dictGet_mergeLoop hn]

/-- Keys the overlay does not carry keep their base value (no distinctness
of the overlay keys is needed for this direction). -/
theorem dictGet_mergeSettings_none {upd : Entries} {key : String}
    (h : dictGet upd key = none) (base : Entries) :
    dictGet (mergeSettings base upd) key = dictGet base key := by
  rw [mergeSettings, dictGet_mergeLoop_none h, deepCopyEntries_eq]

/-! ## Keys of the merge -/

theorem dictKeys_mergeStep (res : Entries) (k : String) (v : Val) :
    dictKeys (mergeStep res k v) =
      if k ∈ dictKeys res then dictKeys res else dictKeys res ++ [k] := by
  have H : ∀ w : Val, dictKeys (dictSet res k w) =
      if k ∈ dictKeys res then dictKeys res else dictKeys res ++ [k] := by
    intro w
    by_cases h : k ∈ dictKeys res
    · rw [if_pos h, dictKeys_dictSet_mem h]
    · rw [if_neg h, dictKeys_dictSet_not_mem h]
  rcases hres : dictGet res k with _ | w
  · cases v <;> (rw [mergeStep.eq_def, hres]; exact H _)
  · cases w <;> cases v <;> (rw [mergeStep.eq_def, hres]; exact H _)

theorem dictKeys_mergeLoop_of_subset : ∀ (upd res : Entries),
    (∀ k ∈ dictKeys upd, k ∈ dictKeys res) →
    dictKeys (mergeLoop res upd) = dictKeys res := by
  intro upd
  induction upd with
  | nil => intro res _; rw [mergeLoop]
  | cons p rest ih =>
    intro res h
    obtain ⟨k0, v0⟩ := p
    have hk0 : k0 ∈ dictKeys res := h k0 (by simp [dictKeys])
    have hstep : dictKeys (mergeStep res k0 v0) = dictKeys res := by
      rw [dictKeys_mergeStep, if_pos hk0]
    have h2 : ∀ k ∈ dictKeys rest, k ∈ dictKeys (mergeStep res k0 v0) := by
      intro k hk
      rw [hstep]
      exact h k (List.mem_cons_of_mem _ hk)
    rw [mergeLoop, ih _ h2, hstep]

theorem subset_dictKeys_mergeLoop_left : ∀ (upd res : Entries) (k : String),
    k ∈ dictKeys res → k ∈ dictKeys (mergeLoop res upd) := by
  intro upd
  induction upd with
  | nil => intro res k hk; rw [mergeLoop]; exact hk
  | cons p rest ih =>
    intro res k hk
    obtain ⟨k0, v0⟩ := p
    rw [mergeLoop]
    refine ih _ k ?_
    rw [dictKeys_mergeStep]
    by_cases hm : k0 ∈ dictKeys res
    · rw [if_pos hm]; exact hk
    · rw [if_neg hm]; exact List.mem_append_left _ hk

theorem subset_dictKeys_mergeLoop_right : ∀ (upd res : Entries) (k : String),
    k ∈ dictKeys upd → k ∈ dictKeys (mergeLoop res upd) := by
  intro upd
  induction upd with
  | nil => intro res k hk; simp [dictKeys] at hk
  | cons p rest ih =>
    intro res k hk
    obtain ⟨k0, v0⟩ := p
    rw [mergeLoop]
    rcases List.mem_cons.mp hk with h | h
    · subst h
      refine subset_dictKeys_mergeLoop_left _ _ _ ?_
      rw [dictKeys_mergeStep]
      by_cases hm : k ∈ dictKeys res
      · rw [if_pos hm]; exact hm
      · rw [if_neg hm]; exact List.mem_append_right _ (by simp)
    · exact ih _ _ h

theorem nodupKeys_mergeStep (res : Entries) (k : String) (v : Val)
    (h : NodupKeys res) : NodupKeys (mergeStep res k v) := by
  show (dictKeys (mergeStep res k v)).Nodup
  rw [dictKeys_mergeStep]
  by_cases hm : k ∈ dictKeys res
  · rw [if_pos hm]; exact h
  · rw [if_neg hm, List.nodup_append]
    refine ⟨h, List.nodup_singleton _, ?_⟩
    intro a ha hb
    simp at hb
    subst hb
    exact hm ha

theorem nodupKeys_mergeLoop : ∀ (upd res : Entries),
    NodupKeys res → NodupKeys (mergeLoop res upd) := by
  intro upd
  induction upd with
  | nil => intro res h; rw [mergeLoop]; exact h
  | cons p rest ih =>
    intro res h
    obtain ⟨k0, v0⟩ := p
    rw [mergeLoop]
    exact ih _ (nodupKeys_mergeStep _ _ _ h)

theorem nodupKeys_mergeSettings {base : Entries} (upd : Entries) (h : NodupKeys base) :
    NodupKeys (mergeSettings base upd) := by
  rw [mergeSettings, deepCopyEntries_eq]
  exact nodupKeys_mergeLoop _ _ h

/-! ## The fold of layers, key by key -/

/-- Per-key characterization of the layer fold: the final value at a key is
the `combine`-fold of the per-layer values at that key. -/
theorem dictGet_foldMerge : ∀ {layers : List Entries},
    (∀ u ∈ layers, NodupKeys u) → ∀ (start : Entries) (key : String),
    dictGet (foldMerge start layers) key =
      List.foldl combine (dictGet start key) (layers.map (fun u => dictGet u key)) := by
  intro layers
  induction layers with
  | nil => intro _ start key; rfl
  | cons u rest ih =>
    intro h start key
    have h1 : NodupKeys u := h u (List.mem_cons_self _ _)
    have h2 : ∀ x ∈ rest, NodupKeys x := fun x hx => h x (List.mem_cons_of_mem _ hx)
    have e1 : foldMerge start (u :: rest) = foldMerge (mergeSettings start u) rest := rfl
    rw [e1, ih h2, dictGet_mergeSettings h1, List.map_cons, List.foldl_cons]

/-! ## Extensionality and further structural lemmas -/

/-- Two dicts with distinct keys, equal ordered key lists and equal values
at every key are equal. -/
theorem entries_ext : ∀ {d e : Entries}, NodupKeys d → dictKeys d = dictKeys e →
    (∀ k, dictGet d k = dictGet e k) → d = e := by
  intro d
  induction d with
  | nil =>
    intro e _ hk _
    cases e with
    | nil => rfl
    | cons q es => simp [dictKeys] at hk
  | cons p rest ih =>
    intro e hn hk hg
    obtain ⟨pk, pv⟩ := p
    cases e with
    | nil => simp [dictKeys] at hk
    | cons q es =>
      obtain ⟨qk, qv⟩ := q
      obtain ⟨hkey, hk2⟩ : pk = qk ∧ dictKeys rest = dictKeys es := by
        simpa [dictKeys] using hk
      subst hkey
      obtain ⟨hpk, hn2⟩ := List.nodup_cons.mp hn
      have hval : pv = qv := by
        have h1 := hg pk
        rw [dictGet, if_pos rfl, dictGet, if_pos rfl] at h1
        exact Option.some.inj h1
      subst hval
      have htails : ∀ k, dictGet rest k = dictGet es k := by
        intro k
        by_cases hkp : k = pk
        · subst hkp
          rw [dictGet_none_of_not_mem hpk,
            dictGet_none_of_not_mem (hk2 ▸ hpk)]
        · have h1 := hg k
          rw [dictGet, if_neg (fun hx => hkp hx.symm),
            dictGet, if_neg (fun hx => hkp hx.symm)] at h1
          exact h1
      rw [ih hn2 hk2 htails]

theorem sizeOf_val_lt_of_mem : ∀ {d : Entries} {k : String} {v : Val},
    (k, v) ∈ d → sizeOf v < sizeOf d := by
  intro d
  induction d with
  | nil => intro k v h; cases h
  | cons p rest ih =>
    intro k v h
    rcases List.mem_cons.mp h with h | h
    · rw [← h]
      simp only [List.cons.sizeOf_spec, Prod.mk.sizeOf_spec]
      omega
    · have := ih h
      simp only [List.cons.sizeOf_spec]
      omega

theorem sizeOf_val_lt_of_dictGet {d : Entries} {k : String} {v : Val}
    (h : dictGet d k = some v) : sizeOf v < sizeOf d :=
  sizeOf_val_lt_of_mem (mem_of_dictGet_eq_some h)

theorem dictSet_append_of_not_mem : ∀ {d : Entries} {k : String},
    k ∉ dictKeys d → ∀ v, dictSet d k v = d ++ [(k, v)] := by
  intro d
  induction d with
  | nil => intro k _ v; rfl
  | cons p rest ih =>
    intro k h v
    obtain ⟨pk, pv⟩ := p
    simp only [dictKeys, List.map_cons, List.mem_cons, not_or] at h
    have hne : pk ≠ k := fun hx => h.1 hx.symm
    rw [dictSet, if_neg hne, ih (by simpa [dictKeys] using h.2)]
    rfl

theorem mergeLoop_all_new : ∀ (upd res : Entries), NodupKeys upd →
    (∀ k ∈ dictKeys upd, k ∉ dictKeys res) →
    mergeLoop res upd = res ++ deepCopyEntries upd := by
  intro upd
  induction upd with
  | nil => intro res _ _; rw [mergeLoop, deepCopyEntries, List.append_nil]
  | cons p rest ih =>
    intro res hn h
    obtain ⟨k0, v0⟩ := p
    obtain ⟨hk0, hn2⟩ := List.nodup_cons.mp hn
    have hmem : k0 ∉ dictKeys res := h k0 (by simp [dictKeys])
    have hres : dictGet res k0 = none := dictGet_none_of_not_mem hmem
    have hstep : mergeStep res k0 v0 = res ++ [(k0, deepCopy v0)] := by
      cases v0 <;>
        (rw [mergeStep.eq_def, hres]; exact dictSet_append_of_not_mem hmem _)
    have hsub : ∀ k ∈ dictKeys rest, k ∉ dictKeys (res ++ [(k0, deepCopy v0)]) := by
      intro k hk
      rw [dictKeys, List.map_append, List.mem_append, not_or]
      refine ⟨h k (List.mem_cons_of_mem _ hk), ?_⟩
      intro hx
      simp [dictKeys] at hx
      exact hk0 (hx ▸ hk)
    rw [mergeLoop, hstep, ih _ hn2 hsub, deepCopyEntries, List.append_assoc]
    rfl

/-- Merging any dict with distinct keys into the empty dict reproduces it. -/
theorem mergeSettings_nil_left {d : Entries} (h : NodupKeys d) :
    mergeSettings [] d = d := by
  rw [mergeSettings]
  have e : deepCopyEntries [] = ([] : Entries) := rfl
  rw [e, mergeLoop_all_new d [] h (by intro k _; simp [dictKeys]),
    deepCopyEntries_eq, List.nil_append]

theorem wfEntries_iff_forall : ∀ {d : Entries},
    wfEntries d = true ↔ ∀ p ∈ d, wfVal p.2 = true := by
  intro d
  induction d with
  | nil => simp [wfEntries]
  | cons p rest ih =>
    obtain ⟨pk, pv⟩ := p
    rw [wfEntries, Bool.and_eq_true, ih]
    constructor
    · intro h q hq
      rcases List.mem_cons.mp hq with h1 | h1
      · rw [h1]; exact h.1
      · exact h.2 q h1
    · intro h
      exact ⟨h (pk, pv) (List.mem_cons_self _ _),
        fun q hq => h q (List.mem_cons_of_mem _ hq)⟩

/-- The merge of two well-formed dicts is well-formed. -/
theorem wfDict_mergeSettings_aux : ∀ (n : ℕ) (upd base : Entries), sizeOf upd < n →
    wfDict base = true → wfDict upd = true →
    wfDict (mergeSettings base upd) = true := by
  intro n
  induction n with
  | zero => intro upd base h _ _; exact absurd h (by omega)
  | succ m ih =>
    intro upd base hsz hb hu
    have hnd : NodupKeys (mergeSettings base upd) :=
      nodupKeys_mergeSettings upd (wfDict_nodup hb)
    rw [wfDict, Bool.and_eq_true]
    refine ⟨decide_eq_true hnd, wfEntries_iff_forall.mpr ?_⟩
    rintro ⟨k, v⟩ hp
    have hg : dictGet (mergeSettings base upd) k = some v :=
      dictGet_eq_some_of_mem_nodup hnd hp
    rw [dictGet_mergeSettings (wfDict_nodup hu)] at hg
    rcases hu2 : dictGet upd k with _ | uv
    · rw [hu2, combine_none_right] at hg
      exact wfDict_mem hb (mem_of_dictGet_eq_some hg)
    · rw [hu2] at hg
      rcases combine_some_inv hg with ⟨b2, u2, ha, hu3, hv⟩ | hv
      · subst hv
        subst hu3
        rw [wfVal_dict]
        have hb2 : wfDict b2 = true := by
          have := wfDict_mem hb (mem_of_dictGet_eq_some ha)
          rwa [wfVal_dict] at this
        have hu4 : wfDict u2 = true := by
          have := wfDict_mem hu (mem_of_dictGet_eq_some hu2)
          rwa [wfVal_dict] at this
        have hszu : sizeOf u2 < m := by
          have h1 : sizeOf (Val.dict u2) < sizeOf upd := sizeOf_val_lt_of_dictGet hu2
          have h2 : sizeOf u2 < sizeOf (Val.dict u2) := by
            simp only [Val.dict.sizeOf_spec]
            omega
          omega
        exact ih u2 b2 hszu hb2 hu4
      · subst hv
        exact wfDict_mem hu (mem_of_dictGet_eq_some hu2)

theorem wfDict_mergeSettings {upd base : Entries}
    (hb : wfDict base = true) (hu : wfDict upd = true) :
    wfDict (mergeSettings base upd) = true :=
  wfDict_mergeSettings_aux (sizeOf upd + 1) upd base (by omega) hb hu

/-! ## Fold-level structural lemmas -/

theorem nodupKeys_foldMerge : ∀ (us : List Entries) (X : Entries),
    NodupKeys X → NodupKeys (foldMerge X us) := by
  intro us
  induction us with
  | nil => intro X h; exact h
  | cons u rest ih =>
    intro X h
    exact ih _ (nodupKeys_mergeSettings u h)

theorem wfDict_foldMerge : ∀ (us : List Entries) (X : Entries),
    wfDict X = true → (∀ u ∈ us, wfDict u = true) →
    wfDict (foldMerge X us) = true := by
  intro us
  induction us with
  | nil => intro X h _; exact h
  | cons u rest ih =>
    intro X h hus
    exact ih _ (wfDict_mergeSettings h (hus u (List.mem_cons_self _ _)))
      (fun x hx => hus x (List.mem_cons_of_mem _ hx))

theorem dictKeys_mergeSettings_of_subset {base upd : Entries}
    (h : ∀ k ∈ dictKeys upd, k ∈ dictKeys base) :
    dictKeys (mergeSettings base upd) = dictKeys base := by
  rw [mergeSettings, deepCopyEntries_eq]
  exact dictKeys_mergeLoop_of_subset _ _ h

theorem subset_dictKeys_mergeSettings_left (base upd : Entries) (k : String)
    (h : k ∈ dictKeys base) : k ∈ dictKeys (mergeSettings base upd) := by
  rw [mergeSettings, deepCopyEntries_eq]
  exact subset_dictKeys_mergeLoop_left _ _ _ h

theorem subset_dictKeys_mergeSettings_right (base upd : Entries) (k : String)
    (h : k ∈ dictKeys upd) : k ∈ dictKeys (mergeSettings base upd) := by
  rw [mergeSettings, deepCopyEntries_eq]
  exact subset_dictKeys_mergeLoop_right _ _ _ h

theorem subset_dictKeys_foldMerge_left : ∀ (us : List Entries) (X : Entries) (k : String),
    k ∈ dictKeys X → k ∈ dictKeys (foldMerge X us) := by
  intro us
  induction us with
  | nil => intro X k h; exact h
  | cons u rest ih =>
    intro X k h
    exact ih _ _ (subset_dictKeys_mergeSettings_left _ u _ h)

theorem subset_dictKeys_foldMerge : ∀ (us : List Entries) (X u : Entries),
    u ∈ us → ∀ k ∈ dictKeys u, k ∈ dictKeys (foldMerge X us) := by
  intro us
  induction us with
  | nil => intro X u h; cases h
  | cons u0 rest ih =>
    intro X u h k hk
    show k ∈ dictKeys (foldMerge (mergeSettings X u0) rest)
    rcases List.mem_cons.mp h with h1 | h1
    · subst h1
      exact subset_dictKeys_foldMerge_left _ _ _
        (subset_dictKeys_mergeSettings_right _ _ _ hk)
    · exact ih _ _ h1 k hk

theorem dictKeys_foldMerge_of_subset : ∀ (us : List Entries) (S : Entries),
    (∀ u ∈ us, ∀ k ∈ dictKeys u, k ∈ dictKeys S) →
    dictKeys (foldMerge S us) = dictKeys S := by
  intro us
  induction us with
  | nil => intro S _; rfl
  | cons u rest ih =>
    intro S h
    have h1 : dictKeys (mergeSettings S u) = dictKeys S :=
      dictKeys_mergeSettings_of_subset (h u (List.mem_cons_self _ _))
    have e1 : foldMerge S (u :: rest) = foldMerge (mergeSettings S u) rest := rfl
    rw [e1, ih _ ?_, h1]
    intro x hx j hj
    rw [h1]
    exact h x (List.mem_cons_of_mem _ hx) j hj

/-! ## Per-key normal form of a fold over dict-only layers -/

/-- The dict values among a per-key value sequence, in order. -/
def extractDicts : List (Option Val) → List Entries
  | [] => []
  | some (.dict d) :: rest => d :: extractDicts rest
  | _ :: rest => extractDicts rest

theorem extractDicts_cons_nondict {u : Val} (h : isDictV u = false)
    (rest : List (Option Val)) :
    extractDicts (some u :: rest) = extractDicts rest := by
  cases u
  case dict => simp [isDictV] at h
  all_goals rfl

/-- What a `combine`-fold produces at one key when every present layer value
at that key is a dict: the dicts get merged left to right, on top of the
start value when that is itself a dict. -/
def nfVal (a : Option Val) : List Entries → Option Val
  | [] => a
  | d :: ds =>
    match a with
    | some (.dict b) => some (.dict (foldMerge b (d :: ds)))
    | _ => some (.dict (foldMerge d ds))

theorem foldl_combine_indep : ∀ (vs : List (Option Val)),
    (∃ u, some u ∈ vs ∧ isDictV u = false) →
    ∀ a b : Option Val, List.foldl combine a vs = List.foldl combine b vs := by
  intro vs
  induction vs with
  | nil => intro hex; exact absurd hex (by simp)
  | cons w rest ih =>
    rintro ⟨u, hmem, hnd⟩ a b
    rcases List.mem_cons.mp hmem with h | h
    · subst h
      rw [List.foldl_cons, List.foldl_cons,
        combine_some_nondict hnd a, combine_some_nondict hnd b]
    · rw [List.foldl_cons, List.foldl_cons]
      exact ih ⟨u, h, hnd⟩ _ _

theorem foldl_combine_nf : ∀ (vs : List (Option Val)),
    (∀ u, some u ∈ vs → isDictV u = true) → ∀ (a : Option Val),
    List.foldl combine a vs = nfVal a (extractDicts vs) := by
  intro vs
  induction vs with
  | nil => intro _ a; rfl
  | cons w rest ih =>
    intro hall a
    have hrest : ∀ u, some u ∈ rest → isDictV u = true :=
      fun u hu => hall u (List.mem_cons_of_mem _ hu)
    rcases w with _ | u
    · rw [List.foldl_cons, combine_none_right,
        show extractDicts (none :: rest) = extractDicts rest from rfl]
      exact ih hrest a
    · have hu : isDictV u = true := hall u (List.mem_cons_self _ _)
      rcases u with _ | _ | _ | _ | d
      case num => simp [isDictV] at hu
      case str => simp [isDictV] at hu
      case bool => simp [isDictV] at hu
      case list => simp [isDictV] at hu
      case dict =>
        rw [List.foldl_cons,
          show extractDicts (some (.dict d) :: rest) = d :: extractDicts rest from rfl,
          ih hrest]
        rcases a with _ | av
        · rcases hE : extractDicts rest with _ | ⟨d2, ds2⟩ <;>
            simp [nfVal, combine, foldMerge]
        · rcases av with q | s | bv | xs | b
          case dict =>
            have hc : combine (some (.dict b)) (some (.dict d)) =
                some (.dict (mergeSettings b d)) := rfl
            rw [hc]
            rcases hE : extractDicts rest with _ | ⟨d2, ds2⟩
            · simp [nfVal, foldMerge]
            · simp only [nfVal]
              rfl
          all_goals
            rcases hE : extractDicts rest with _ | ⟨d2, ds2⟩ <;>
              simp [nfVal, combine, foldMerge]

/-! ## Size bounds for the refold recursion -/

theorem sizeOf_list_pos {α : Type} [SizeOf α] (l : List α) : 1 ≤ sizeOf l := by
  cases l <;> simp only [List.nil.sizeOf_spec, List.cons.sizeOf_spec] <;> omega

theorem sizeOf_extractDicts_le : ∀ vs : List (Option Val),
    sizeOf (extractDicts vs) ≤ sizeOf vs := by
  intro vs
  induction vs with
  | nil => simp [extractDicts]
  | cons w rest ih =>
    rcases w with _ | u
    · rw [show extractDicts (none :: rest) = extractDicts rest from rfl]
      simp only [List.cons.sizeOf_spec]
      omega
    · rcases u with q | s | b | xs | d
      case dict =>
        rw [show extractDicts (some (.dict d) :: rest) = d :: extractDicts rest from rfl]
        simp only [List.cons.sizeOf_spec, Option.some.sizeOf_spec, Val.dict.sizeOf_spec]
        omega
      all_goals
        simp only [extractDicts, List.cons.sizeOf_spec]
        omega

theorem sizeOf_extractDicts_lt : ∀ vs : List (Option Val), vs ≠ [] →
    sizeOf (extractDicts vs) < sizeOf vs := by
  intro vs h
  cases vs with
  | nil => exact absurd rfl h
  | cons w rest =>
    have hle := sizeOf_extractDicts_le rest
    rcases w with _ | u
    · rw [show extractDicts (none :: rest) = extractDicts rest from rfl]
      simp only [List.cons.sizeOf_spec]
      omega
    · rcases u with q | s | b | xs | d
      case dict =>
        rw [show extractDicts (some (.dict d) :: rest) = d :: extractDicts rest from rfl]
        simp only [List.cons.sizeOf_spec, Option.some.sizeOf_spec, Val.dict.sizeOf_spec]
        omega
      all_goals
        simp only [extractDicts, List.cons.sizeOf_spec]
        omega

theorem sizeOf_dictGet_le {u : Entries} (key : String) :
    sizeOf (dictGet u key) ≤ sizeOf u := by
  rcases h : dictGet u key with _ | v
  · have := sizeOf_list_pos u
    simp only [Option.none.sizeOf_spec]
    omega
  · have := sizeOf_val_lt_of_dictGet h
    simp only [Option.some.sizeOf_spec]
    omega

theorem sizeOf_map_dictGet_le : ∀ (us : List Entries) (key : String),
    sizeOf (us.map (fun u => dictGet u key)) ≤ sizeOf us := by
  intro us key
  induction us with
  | nil => simp
  | cons u rest ih =>
    rw [List.map_cons]
    simp only [List.cons.sizeOf_spec]
    have : sizeOf (dictGet u key) ≤ sizeOf u := sizeOf_dictGet_le key
    omega

theorem wfDict_nil : wfDict [] = true := by decide

theorem extractDicts_mem : ∀ (vs : List (Option Val)) (e : Entries),
    e ∈ extractDicts vs → some (.dict e) ∈ vs := by
  intro vs
  induction vs with
  | nil => intro e h; cases h
  | cons w rest ih =>
    intro e h
    rcases w with _ | u
    · rw [show extractDicts (none :: rest) = extractDicts rest from rfl] at h
      exact List.mem_cons_of_mem _ (ih e h)
    · rcases u with q | s | b | xs | d
      case dict =>
        rw [show extractDicts (some (.dict d) :: rest) = d :: extractDicts rest from rfl] at h
        rcases List.mem_cons.mp h with h1 | h1
        · subst h1; exact List.mem_cons_self _ _
        · exact List.mem_cons_of_mem _ (ih e h1)
      all_goals
        simp only [extractDicts] at h
        exact List.mem_cons_of_mem _ (ih e h)

/-! ## Idempotence of refolding the same ordered layer list -/

theorem foldMerge_idem_aux : ∀ (n : ℕ) (us : List Entries) (X : Entries),
    sizeOf us < n → wfDict X = true → (∀ u ∈ us, wfDict u = true) →
    foldMerge (foldMerge X us) us = foldMerge X us := by
  intro n
  induction n with
  | zero => intro us X h _ _; exact absurd h (by omega)
  | succ m ih =>
    intro us X hsz hX hus
    have hXnd : NodupKeys X := wfDict_nodup hX
    have hRnd : NodupKeys (foldMerge X us) := nodupKeys_foldMerge us X hXnd
    have hnodups : ∀ u ∈ us, NodupKeys u := fun u hu => wfDict_nodup (hus u hu)
    have hsubs : ∀ u ∈ us, ∀ k ∈ dictKeys u, k ∈ dictKeys (foldMerge X us) :=
      fun u hu k hk => subset_dictKeys_foldMerge us X u hu k hk
    have hkeys : dictKeys (foldMerge (foldMerge X us) us) = dictKeys (foldMerge X us) :=
      dictKeys_foldMerge_of_subset us _ hsubs
    have hpt : ∀ key, dictGet (foldMerge (foldMerge X us) us) key
        = dictGet (foldMerge X us) key := by
      intro key
      rw [dictGet_foldMerge hnodups (foldMerge X us) key,
          dictGet_foldMerge hnodups X key]
      by_cases hex : ∃ u, some u ∈ us.map (fun u => dictGet u key) ∧ isDictV u = false
      · exact foldl_combine_indep _ hex _ _
      · push_neg at hex
        have hall : ∀ u, some u ∈ us.map (fun u => dictGet u key) → isDictV u = true := by
          intro u hu
          have h1 := hex u hu
          cases h2 : isDictV u
          · exact absurd h2 h1
          · rfl
        rw [foldl_combine_nf _ hall, foldl_combine_nf _ hall]
        have hwfE : ∀ e ∈ extractDicts (us.map (fun u => dictGet u key)),
            wfDict e = true := by
          intro e he
          have h1 : some (.dict e) ∈ us.map (fun u => dictGet u key) :=
            extractDicts_mem _ e he
          obtain ⟨u, hu, he2⟩ := List.mem_map.mp h1
          have h3 := wfDict_mem (hus u hu) (mem_of_dictGet_eq_some he2)
          rwa [wfVal_dict] at h3
        rcases hE : extractDicts (us.map (fun u => dictGet u key)) with _ | ⟨d, ds⟩
        · rfl
        · have hne : us.map (fun u => dictGet u key) ≠ [] := by
            intro hnil
            rw [hnil] at hE
            cases hE
          have hlt : sizeOf (extractDicts (us.map (fun u => dictGet u key)))
              < sizeOf us :=
            lt_of_lt_of_le (sizeOf_extractDicts_lt _ hne) (sizeOf_map_dictGet_le us key)
          rw [hE] at hlt
          have hmlt : sizeOf (d :: ds) < m := by omega
          have hwfd : ∀ e ∈ (d :: ds), wfDict e = true := fun e he => hwfE e (hE ▸ he)
          have e0 : foldMerge d ds = foldMerge [] (d :: ds) := by
            show foldMerge d ds = foldMerge (mergeSettings [] d) ds
            rw [mergeSettings_nil_left (wfDict_nodup (hwfd d (List.mem_cons_self _ _)))]
          have hgoal : ∀ a0 : Option Val,
              nfVal a0 (d :: ds) = some (.dict (foldMerge d ds)) →
              nfVal (nfVal a0 (d :: ds)) (d :: ds) = nfVal a0 (d :: ds) := by
            intro a0 h0
            rw [h0]
            show some (Val.dict (foldMerge (foldMerge d ds) (d :: ds)))
              = some (Val.dict (foldMerge d ds))
            rw [e0, ih (d :: ds) [] hmlt wfDict_nil hwfd]
          rcases hXv : dictGet X key with _ | av
          · exact hgoal none rfl
          · rcases av with q | s | bv | xs | b
            · exact hgoal _ rfl
            · exact hgoal _ rfl
            · exact hgoal _ rfl
            · exact hgoal _ rfl
            · show some (Val.dict (foldMerge (foldMerge b (d :: ds)) (d :: ds)))
                = some (Val.dict (foldMerge b (d :: ds)))
              have hwfb : wfDict b = true := by
                have h4 := wfDict_mem hX (mem_of_dictGet_eq_some hXv)
                rwa [wfVal_dict] at h4
              rw [ih (d :: ds) b hmlt hwfb hwfd]
    exact entries_ext (nodupKeys_foldMerge us _ hRnd) hkeys hpt

/-- Refolding the same ordered layer list over the fold's own result is the
identity (for snapshots whose dicts have distinct keys, as Python dicts do). -/
theorem foldMerge_idem (us : List Entries) (X : Entries)
    (hX : wfDict X = true) (hus : ∀ u ∈ us, wfDict u = true) :
    foldMerge (foldMerge X us) us = foldMerge X us :=
  foldMerge_idem_aux (sizeOf us + 1) us X (by omega) hX hus

/-- Pairwise idempotence of `_merge_settings`. -/
theorem mergeSettings_idem {A B : Entries} (hA : wfDict A = true) (hB : wfDict B = true) :
    mergeSettings (mergeSettings A B) B = mergeSettings A B :=
  foldMerge_idem [B] A hA (by
    intro u hu
    rcases List.mem_cons.mp hu with h | h
    · rw [h]; exact hB
    · cases h)

theorem foldl_combine_all_none : ∀ (ws : List (Option Val)),
    (∀ w ∈ ws, w = none) → ∀ x : Option Val, List.foldl combine x ws = x := by
  intro ws
  induction ws with
  | nil => intro _ x; rfl
  | cons w rest ih =>
    intro h x
    rw [List.foldl_cons, h w (List.mem_cons_self _ _), combine_none_right]
    exact ih (fun w hw => h w (List.mem_cons_of_mem _ hw)) x

/-! ## Claim theorems for the deep-merge engine -/

/-- Sample trees used by the claim witnesses below. -/
def sampleBase : Entries :=
  [("cline_settings", .dict [("contextWindow", .num 200000),
    ("codeStyle", .dict [("indentation", .num 4)])])]

/-- Sample overlay used by the claim witnesses below. -/
def sampleOverlay : Entries :=
  [("cline_settings", .dict [("codeStyle", .dict [("indentation", .num 2)]),
    ("requestLimit", .num 50)])]

/-- C1.  Merge precedence of `_merge_settings`, key by key: if both sides
hold mappings, the result recurses; a key held by one side alone keeps that
side's (deep-copied) value; if both sides hold the key and either value is
not a mapping (sequences included), the overlay value wins wholesale.
Consequently, in a fold of layers, the layer that holds a non-mapping value
at a key and is the last layer holding that key at all determines the final
value there. -/
theorem merge_precedence (base upd : Entries) (hu : NodupKeys upd) (key : String) :
    (∀ b2 u2, dictGet base key = some (.dict b2) → dictGet upd key = some (.dict u2) →
      dictGet (mergeSettings base upd) key = some (.dict (mergeSettings b2 u2)))
    ∧ (dictGet upd key = none →
      dictGet (mergeSettings base upd) key = (dictGet base key).map deepCopy)
    ∧ (∀ v, dictGet base key = none → dictGet upd key = some v →
      dictGet (mergeSettings base upd) key = some (deepCopy v))
    ∧ (∀ bv uv, dictGet base key = some bv → dictGet upd key = some uv →
      (isDictV bv = false ∨ isDictV uv = false) →
      dictGet (mergeSettings base upd) key = some uv)
    ∧ (∀ (layers : List Entries) (start : Entries) (pre post : List Entries)
        (L : Entries) (v : Val),
      (∀ u ∈ layers, NodupKeys u) → layers = pre ++ L :: post →
      dictGet L key = some v → isDictV v = false →
      (∀ u ∈ post, dictGet u key = none) →
      dictGet (foldMerge start layers) key = some v) := by
  refine ⟨?_, ?_, ?_, ?_, ?_⟩
  · intro b2 u2 hb hup
    rw [dictGet_mergeSettings hu, hb, hup]
    rfl
  · intro h
    rw [dictGet_mergeSettings_none h]
    rcases hb : dictGet base key with _ | v
    · rfl
    · rw [Option.map_some', deepCopy_eq]
  · intro v hb hup
    rw [dictGet_mergeSettings hu, hb, hup, deepCopy_eq]
    cases v <;> rfl
  · intro bv uv hb hup hnd
    rw [dictGet_mergeSettings hu, hb, hup]
    rcases hnd with hnd | hnd
    · cases bv
      case dict => simp [isDictV] at hnd
      all_goals (cases uv <;> rfl)
    · exact combine_some_nondict hnd _
  · intro layers start pre post L v hlu hsplit hL hv hpost
    subst hsplit
    have hpre : ∀ u ∈ pre, NodupKeys u :=
      fun u hu2 => hlu u (List.mem_append_left _ hu2)
    rw [dictGet_foldMerge hlu, List.map_append, List.foldl_append,
      List.map_cons, List.foldl_cons, hL, combine_some_nondict hv]
    refine foldl_combine_all_none _ ?_ _
    intro w hw
    obtain ⟨u, hu2, rfl⟩ := List.mem_map.mp hw
    exact hpost u hu2

theorem merge_precedence_witness :
    dictGet (mergeSettings sampleBase sampleOverlay) "cline_settings"
      = some (.dict (mergeSettings
          [("contextWindow", .num 200000), ("codeStyle", .dict [("indentation", .num 4)])]
          [("codeStyle", .dict [("indentation", .num 2)]), ("requestLimit", .num 50)])) :=
  (merge_precedence sampleBase sampleOverlay (by decide) "cline_settings").1 _ _ rfl rfl

/-- C3.  Repeated application of the same ordered layer list is idempotent:
refolding the layers over the fold's own result returns an equal tree, and
in particular merging the same overlay twice equals merging it once.  The
`wfDict` hypotheses state that the trees are images of Python dicts (all
nested keys distinct). -/
theorem repeated_fold_idempotent :
    (∀ (A : Entries) (layers : List Entries), wfDict A = true →
      (∀ u ∈ layers, wfDict u = true) →
      foldMerge (foldMerge A layers) layers = foldMerge A layers)
    ∧ (∀ A B : Entries, wfDict A = true → wfDict B = true →
      mergeSettings (mergeSettings A B) B = mergeSettings A B) :=
  ⟨fun A layers hA hl => foldMerge_idem layers A hA hl,
   fun _ _ hA hB => mergeSettings_idem hA hB⟩

theorem repeated_fold_idempotent_witness :
    mergeSettings (mergeSettings sampleBase sampleOverlay) sampleOverlay
      = mergeSettings sampleBase sampleOverlay :=
  repeated_fold_idempotent.2 sampleBase sampleOverlay (by decide) (by decide)

/-! ## A fuel-indexed companion of the merge

`mergeSettings` is compiled by well-founded recursion and therefore does
not reduce definitionally on concrete inputs.  The fuel-indexed companion
below is structurally recursive on the fuel, computes by `rfl`, and agrees
with `mergeSettings` whenever the fuel exceeds the overlay's size. -/

mutual

def mergeFuel : Nat → Entries → Entries → Entries
  | 0, base, _ => base
  | n+1, base, upd => mergeLoopFuel n (deepCopyEntries base) upd

def mergeLoopFuel : Nat → Entries → Entries → Entries
  | 0, result, _ => result
  | _+1, result, [] => result
  | n+1, result, (k, v) :: rest => mergeLoopFuel n (mergeStepFuel n result k v) rest

def mergeStepFuel : Nat → Entries → String → Val → Entries
  | 0, result, _, _ => result
  | n+1, result, key, value =>
    match dictGet result key, value with
    | some (.dict bsub), .dict usub => dictSet result key (.dict (mergeFuel n bsub usub))
    | _, _ => dictSet result key (deepCopy value)

end

theorem sizeOf_val_pos (v : Val) : 1 ≤ sizeOf v := by
  cases v <;> simp_arith

theorem mergeStepFuel_succ (n : Nat) (res : Entries) (key : String) (value : Val) :
    mergeStepFuel (n+1) res key value =
      match dictGet res key, value with
      | some (.dict bsub), .dict usub => dictSet res key (.dict (mergeFuel n bsub usub))
      | _, _ => dictSet res key (deepCopy value) := by
  rw [mergeStepFuel.eq_def]

theorem mergeFuel_adequate : ∀ n : Nat,
    (∀ b u : Entries, sizeOf u < n → mergeFuel n b u = mergeSettings b u)
    ∧ (∀ (res u : Entries), sizeOf u ≤ n → mergeLoopFuel n res u = mergeLoop res u)
    ∧ (∀ (res : Entries) (k : String) (v : Val), sizeOf v < n →
        mergeStepFuel n res k v = mergeStep res k v) := by
  intro n
  induction n with
  | zero =>
    refine ⟨fun b u h => absurd h (by omega), fun res u h => ?_, fun res k v h => ?_⟩
    · exact absurd h (by have := sizeOf_list_pos u; omega)
    · exact absurd h (by have := sizeOf_val_pos v; omega)
  | succ m ih =>
    obtain ⟨ihf, ihl, ihs⟩ := ih
    refine ⟨?_, ?_, ?_⟩
    · intro b u h
      rw [mergeFuel, ihl _ _ (by omega), mergeSettings]
    · intro res u h
      cases u with
      | nil => rw [mergeLoopFuel, mergeLoop]
      | cons p rest =>
        obtain ⟨k, v⟩ := p
        have hrest : 1 ≤ sizeOf rest := sizeOf_list_pos rest
        have hbounds : sizeOf ((k, v) :: rest)
            = 1 + (1 + sizeOf k + sizeOf v) + sizeOf rest := by
          simp only [List.cons.sizeOf_spec, Prod.mk.sizeOf_spec]
        rw [mergeLoopFuel, mergeLoop, ihs _ _ _ (by omega), ihl _ _ (by omega)]
    · intro res k v h
      rcases hres : dictGet res k with _ | w
      · cases v <;> rw [mergeStepFuel_succ, mergeStep.eq_def, hres]
      · rcases w with q2 | s2 | b2 | xs2 | bsub
        · cases v <;> rw [mergeStepFuel_succ, mergeStep.eq_def, hres]
        · cases v <;> rw [mergeStepFuel_succ, mergeStep.eq_def, hres]
        · cases v <;> rw [mergeStepFuel_succ, mergeStep.eq_def, hres]
        · cases v <;> rw [mergeStepFuel_succ, mergeStep.eq_def, hres]
        · rcases v with q2 | s2 | b2 | xs2 | usub
          · rw [mergeStepFuel_succ, mergeStep.eq_def, hres]
          · rw [mergeStepFuel_succ, mergeStep.eq_def, hres]
          · rw [mergeStepFuel_succ, mergeStep.eq_def, hres]
          · rw [mergeStepFuel_succ, mergeStep.eq_def, hres]
          · rw [mergeStepFuel_succ, mergeStep.eq_def, hres]
            have hsz : sizeOf usub < m := by
              simp only [Val.dict.sizeOf_spec] at h; omega
            show dictSet res k (.dict (mergeFuel m bsub usub))
              = dictSet res k (.dict (mergeSettings bsub usub))
            rw [ihf _ _ hsz]

theorem mergeSettings_eq_fuel (b u : Entries) :
    mergeSettings b u = mergeFuel (sizeOf u + 1) b u :=
  ((mergeFuel_adequate (sizeOf u + 1)).1 b u (by omega)).symm

/-! ## Concrete-snapshot claims -/

/-- The final value a synthesis result holds inside `cline_settings`. -/
def getCline (r : Option Entries) (key : String) : Option Val :=
  match r with
  | none => none
  | some d =>
    match dictGet d "cline_settings" with
    | some (.dict c) => dictGet c key
    | _ => none

/-- The C4 snapshot: memory.percent = 85 and every other field absent or at
its default. -/
def c4ConfigData : Entries := []

/-- The C4 performance snapshot. -/
def c4PerformanceData : Entries :=
  [("system_metrics", .dict [("memory", .dict [("percent", .num 85)])])]

/-- C4 counterexample: on the claimed snapshot the final `contextWindow` is
not 100000 — the small-project scale layer (total_files = 0) later
overwrites the low-memory tier's 100000 with 150000. -/
theorem c4_low_memory_example_counterexample :
    getCline (generateAdaptiveConfig c4ConfigData c4PerformanceData) "contextWindow"
      ≠ some (.num 100000) := by
  have he : getCline (generateAdaptiveConfig c4ConfigData c4PerformanceData) "contextWindow"
      = some (.num 150000) := by
    simp only [generateAdaptiveConfig, mergeSettings_eq_fuel]
    rfl
  rw [he]
  intro h
  have h1 := Option.some.inj h
  have h2 : (150000 : ℚ) = 100000 := by injection h1
  norm_num at h2

/-- C4 amended: the low-memory tier fires (maxResponseTokens = 4096
survives to the end), but the final contextWindow is 150000, because the
small-project scale layer overwrites the tier's 100000. -/
theorem c4_low_memory_example :
    getCline (generateAdaptiveConfig c4ConfigData c4PerformanceData) "contextWindow"
        = some (.num 150000)
    ∧ getCline (generateAdaptiveConfig c4ConfigData c4PerformanceData) "maxResponseTokens"
        = some (.num 4096) := by
  constructor
  · simp only [generateAdaptiveConfig, mergeSettings_eq_fuel]
    rfl
  · simp only [generateAdaptiveConfig, mergeSettings_eq_fuel]
    rfl

/-- C9: with `project_structure` absent, `generate_improved_rules` raises
(`_format_rules_file` guards with `.get('project_type') != 'unknown'` and
then indexes `project_info['project_type']` directly, a `KeyError`), while
`generate_adaptive_config` tolerates the same snapshot. -/
theorem missing_section_not_tolerated :
    generateImprovedRules [] [] "" = none
    ∧ (generateAdaptiveConfig [] []).isSome = true := by
  constructor
  · rfl
  · simp only [generateAdaptiveConfig, mergeSettings_eq_fuel]
    rfl

/-! ## C7: the dedup pass -/

theorem contains_mem_iff (l : List String) (a : String) :
    l.contains a = true ↔ a ∈ l := by
  rw [List.contains_iff_exists_mem_beq]
  constructor
  · rintro ⟨b, hb, hab⟩
    exact (beq_iff_eq.mp hab) ▸ hb
  · intro h
    exact ⟨a, h, by simp⟩

/-- The tail recursion inside `_remove_duplicates`: `seen` is the set of
canonical keys already kept. -/
def rdGo (seen : List String) : List String → List String
  | [] => []
  | r :: rest =>
      if seen.contains (canon r) then rdGo seen rest
      else r :: rdGo (canon r :: seen) rest

theorem removeDuplicates_foldl_eq : ∀ (rules seen acc : List String),
    (rules.foldl (fun st rule =>
        let ruleLower := canon rule
        if st.1.contains ruleLower then st
        else (ruleLower :: st.1, st.2 ++ [rule])) (seen, acc)).2
      = acc ++ rdGo seen rules := by
  intro rules
  induction rules with
  | nil => intro seen acc; simp [rdGo]
  | cons r rest ih =>
    intro seen acc
    rw [List.foldl_cons, rdGo]
    rcases h : seen.contains (canon r)
    · simp only [h, Bool.false_eq_true, if_false]
      rw [ih (canon r :: seen) (acc ++ [r]), List.append_assoc]
      rfl
    · simp only [h, if_true]
      exact ih seen acc

theorem removeDuplicates_eq_rdGo (rules : List String) :
    removeDuplicates rules = rdGo [] rules := by
  rw [removeDuplicates, removeDuplicates_foldl_eq rules [] [], List.nil_append]

theorem rdGo_sublist : ∀ (rules seen : List String), (rdGo seen rules).Sublist rules := by
  intro rules
  induction rules with
  | nil => intro seen; exact List.Sublist.refl _
  | cons r rest ih =>
    intro seen
    rw [rdGo]
    rcases h : seen.contains (canon r)
    · simp only [h, Bool.false_eq_true, if_false]
      exact (ih _).cons₂ _
    · simp only [h, if_true]
      exact (ih seen).cons _

theorem rdGo_not_seen : ∀ (rules seen : List String) (x : String),
    x ∈ rdGo seen rules → canon x ∉ seen := by
  intro rules
  induction rules with
  | nil => intro seen x h; cases h
  | cons r rest ih =>
    intro seen x h
    rw [rdGo] at h
    rcases hc : seen.contains (canon r)
    · simp only [hc, Bool.false_eq_true, if_false] at h
      rcases List.mem_cons.mp h with h1 | h1
      · subst h1
        intro hmem
        rw [← contains_mem_iff] at hmem
        rw [hmem] at hc
        cases hc
      · have h2 := ih _ x h1
        intro hmem
        exact h2 (List.mem_cons_of_mem _ hmem)
    · simp only [hc, if_true] at h
      exact ih seen x h

theorem rdGo_canon_nodup : ∀ (rules seen : List String),
    ((rdGo seen rules).map canon).Nodup := by
  intro rules
  induction rules with
  | nil => intro seen; simp [rdGo]
  | cons r rest ih =>
    intro seen
    rw [rdGo]
    rcases hc : seen.contains (canon r)
    · simp only [hc, Bool.false_eq_true, if_false, List.map_cons]
      refine List.nodup_cons.mpr ⟨?_, ih _⟩
      intro hmem
      obtain ⟨x, hx, hcx⟩ := List.mem_map.mp hmem
      exact rdGo_not_seen _ _ _ hx (hcx ▸ List.mem_cons_self _ _)
    · simp only [hc, if_true]
      exact ih seen

theorem rdGo_first_occurrence : ∀ (rules seen : List String) (x : String),
    x ∈ rdGo seen rules →
    rules.find? (fun r => canon r == canon x) = some x := by
  intro rules
  induction rules with
  | nil => intro seen x h; cases h
  | cons r rest ih =>
    intro seen x h
    rw [rdGo] at h
    rcases hc : seen.contains (canon r)
    · simp only [hc, Bool.false_eq_true, if_false] at h
      rcases List.mem_cons.mp h with h1 | h1
      · subst h1
        rw [List.find?_cons_of_pos _ (by simp)]
      · have h2 := rdGo_not_seen _ _ _ h1
        have hne : canon r ≠ canon x := by
          intro he
          exact h2 (he ▸ List.mem_cons_self _ _)
        rw [List.find?_cons_of_neg _ (by simpa using hne)]
        exact ih _ x h1
    · simp only [hc, if_true] at h
      have hrs : canon r ∈ seen := (contains_mem_iff _ _).mp hc
      have hne : canon r ≠ canon x := by
        intro he
        exact rdGo_not_seen _ _ _ h (he ▸ hrs)
      rw [List.find?_cons_of_neg _ (by simpa using hne)]
      exact ih seen x h

theorem rdGo_covers : ∀ (rules seen : List String) (r0 : String), r0 ∈ rules →
    canon r0 ∈ seen ∨ ∃ x ∈ rdGo seen rules, canon x = canon r0 := by
  intro rules
  induction rules with
  | nil => intro seen r0 h; cases h
  | cons r rest ih =>
    intro seen r0 h
    rw [rdGo]
    rcases hc : seen.contains (canon r)
    · simp only [hc, Bool.false_eq_true, if_false]
      rcases List.mem_cons.mp h with h1 | h1
      · subst h1
        right
        exact ⟨r0, List.mem_cons_self _ _, rfl⟩
      · rcases ih (canon r :: seen) r0 h1 with h2 | ⟨x, hx, hcx⟩
        · rcases List.mem_cons.mp h2 with h3 | h3
          · right
            exact ⟨r, List.mem_cons_self _ _, h3.symm⟩
          · left
            exact h3
        · right
          exact ⟨x, List.mem_cons_of_mem _ hx, hcx⟩
    · simp only [hc, if_true]
      rcases List.mem_cons.mp h with h1 | h1
      · subst h1
        left
        exact (contains_mem_iff _ _).mp hc
      · exact ih seen r0 h1

/-- C7.  `_remove_duplicates` keeps, per case-insensitive trimmed text,
exactly the first occurrence, in original order: the output is a sublist of
the input (insertion order preserved), its canonical keys are pairwise
distinct, every survivor is the first input element carrying its key, and
every input element is represented by a survivor with the same key. -/
theorem remove_duplicates_spec (rules : List String) :
    (removeDuplicates rules).Sublist rules
    ∧ ((removeDuplicates rules).map canon).Nodup
    ∧ (∀ x ∈ removeDuplicates rules,
        rules.find? (fun r => canon r == canon x) = some x)
    ∧ (∀ r ∈ rules, ∃ x ∈ removeDuplicates rules, canon x = canon r) := by
  rw [removeDuplicates_eq_rdGo]
  refine ⟨rdGo_sublist _ _, rdGo_canon_nodup _ _,
    fun x hx => rdGo_first_occurrence _ _ _ hx, fun r hr => ?_⟩
  rcases rdGo_covers rules [] r hr with h | h
  · cases h
  · exact h

theorem remove_duplicates_spec_witness :
    removeDuplicates ["Use HTTPS", " use https "] = ["Use HTTPS"]
    ∧ ["Use HTTPS", " use https "].find?
        (fun r => canon r == canon "Use HTTPS") = some "Use HTTPS" :=
  ⟨rfl, (remove_duplicates_spec ["Use HTTPS", " use https "]).2.2.1
    "Use HTTPS" (by decide)⟩

/-! ## C8: the stable priority sort -/

theorem rulePriority_bounds (r : String) :
    1 ≤ rulePriority r ∧ rulePriority r ≤ 5 := by
  rw [rulePriority]
  split
  · omega
  · split
    · omega
    · split
      · omega
      · split <;> omega

theorem insertByPriority_mid (x : String) : ∀ (l1 l2 : List String),
    (∀ y ∈ l1, rulePriority y ≤ rulePriority x) →
    (∀ y ∈ l2, rulePriority x < rulePriority y) →
    insertByPriority x (l1 ++ l2) = l1 ++ x :: l2 := by
  intro l1
  induction l1 with
  | nil =>
    intro l2 _ h2
    cases l2 with
    | nil => rfl
    | cons y ys =>
      rw [List.nil_append, insertByPriority,
        if_neg (by have := h2 y (List.mem_cons_self _ _); omega)]
      rfl
  | cons y ys ih =>
    intro l2 h1 h2
    rw [List.cons_append, insertByPriority,
      if_pos (h1 y (List.mem_cons_self _ _)), ih l2
        (fun z hz => h1 z (List.mem_cons_of_mem _ hz)) h2]
    rfl

/-- The five buckets of a rule list, by priority class, in input order. -/
def priorityBuckets (l : List String) : List String :=
  (l.filter (fun r => rulePriority r == 1))
  ++ (l.filter (fun r => rulePriority r == 2))
  ++ (l.filter (fun r => rulePriority r == 3))
  ++ (l.filter (fun r => rulePriority r == 4))
  ++ (l.filter (fun r => rulePriority r == 5))

theorem mem_filter_priority {l : List String} {x : String} {p : ℕ}
    (h : x ∈ l.filter (fun r => rulePriority r == p)) : rulePriority x = p := by
  have := (List.mem_filter.mp h).2
  simpa using this

theorem filter_append_singleton (l : List String) (x : String) (i : ℕ) :
    (l ++ [x]).filter (fun r => rulePriority r == i)
      = l.filter (fun r => rulePriority r == i)
        ++ if rulePriority x == i then [x] else [] := by
  rw [List.filter_append]
  congr 1
  by_cases h : (rulePriority x == i) = true
  · simp [List.filter_cons, h]
  · simp [List.filter_cons, h]

theorem prioritizeRules_eq_buckets (rules : List String) (cfg : Entries) :
    prioritizeRules rules cfg = priorityBuckets rules := by
  rw [prioritizeRules]
  induction rules using List.reverseRecOn with
  | nil => rfl
  | append_singleton l x ih =>
    rw [List.foldl_append, List.foldl_cons, List.foldl_nil, ih]
    have hb := rulePriority_bounds x
    have hp5 : rulePriority x = 1 ∨ rulePriority x = 2 ∨ rulePriority x = 3 ∨
        rulePriority x = 4 ∨ rulePriority x = 5 := by omega
    rw [priorityBuckets, priorityBuckets,
      filter_append_singleton, filter_append_singleton, filter_append_singleton,
      filter_append_singleton, filter_append_singleton]
    rcases hp5 with hp | hp | hp | hp | hp <;> rw [hp] <;>
      simp only [Nat.reduceBEq, eq_self_iff_true, Bool.false_eq_true, if_true,
        if_false, List.append_nil] <;>
      simp only [List.append_assoc, List.singleton_append]
    · have hmid := insertByPriority_mid x
        (l.filter (fun r => rulePriority r == 1))
        (l.filter (fun r => rulePriority r == 2)
          ++ (l.filter (fun r => rulePriority r == 3)
          ++ (l.filter (fun r => rulePriority r == 4)
          ++ l.filter (fun r => rulePriority r == 5))))
        (by intro y hy; have := mem_filter_priority hy; omega)
        (by
          intro y hy
          rcases List.mem_append.mp hy with h | h
          · have := mem_filter_priority h; omega
          rcases List.mem_append.mp h with h | h
          · have := mem_filter_priority h; omega
          rcases List.mem_append.mp h with h | h <;>
            (have h9 := mem_filter_priority h; omega))
      simp only [List.append_assoc] at hmid
      exact hmid
    · have hmid := insertByPriority_mid x
        (l.filter (fun r => rulePriority r == 1)
          ++ l.filter (fun r => rulePriority r == 2))
        (l.filter (fun r => rulePriority r == 3)
          ++ (l.filter (fun r => rulePriority r == 4)
          ++ l.filter (fun r => rulePriority r == 5)))
        (by
          intro y hy
          rcases List.mem_append.mp hy with h | h <;>
            (have h9 := mem_filter_priority h; omega))
        (by
          intro y hy
          rcases List.mem_append.mp hy with h | h
          · have := mem_filter_priority h; omega
          rcases List.mem_append.mp h with h | h <;>
            (have h9 := mem_filter_priority h; omega))
      simp only [List.append_assoc] at hmid
      exact hmid
    · have hmid := insertByPriority_mid x
        (l.filter (fun r => rulePriority r == 1)
          ++ (l.filter (fun r => rulePriority r == 2)
          ++ l.filter (fun r => rulePriority r == 3)))
        (l.filter (fun r => rulePriority r == 4)
          ++ l.filter (fun r => rulePriority r == 5))
        (by
          intro y hy
          rcases List.mem_append.mp hy with h | h
          · have := mem_filter_priority h; omega
          rcases List.mem_append.mp h with h | h <;>
            (have h9 := mem_filter_priority h; omega))
        (by
          intro y hy
          rcases List.mem_append.mp hy with h | h <;>
            (have h9 := mem_filter_priority h; omega))
      simp only [List.append_assoc] at hmid
      exact hmid
    · have hmid := insertByPriority_mid x
        (l.filter (fun r => rulePriority r == 1)
          ++ (l.filter (fun r => rulePriority r == 2)
          ++ (l.filter (fun r => rulePriority r == 3)
          ++ l.filter (fun r => rulePriority r == 4))))
        (l.filter (fun r => rulePriority r == 5))
        (by
          intro y hy
          rcases List.mem_append.mp hy with h | h
          · have := mem_filter_priority h; omega
          rcases List.mem_append.mp h with h | h
          · have := mem_filter_priority h; omega
          rcases List.mem_append.mp h with h | h <;>
            (have h9 := mem_filter_priority h; omega))
        (by intro y hy; have := mem_filter_priority hy; omega)
      simp only [List.append_assoc] at hmid
      exact hmid
    · have hmid := insertByPriority_mid x
        (l.filter (fun r => rulePriority r == 1)
          ++ (l.filter (fun r => rulePriority r == 2)
          ++ (l.filter (fun r => rulePriority r == 3)
          ++ (l.filter (fun r => rulePriority r == 4)
          ++ l.filter (fun r => rulePriority r == 5)))))
        []
        (by
          intro y hy
          rcases List.mem_append.mp hy with h | h
          · have := mem_filter_priority h; omega
          rcases List.mem_append.mp h with h | h
          · have := mem_filter_priority h; omega
          rcases List.mem_append.mp h with h | h
          · have := mem_filter_priority h; omega
          rcases List.mem_append.mp h with h | h <;>
            (have h9 := mem_filter_priority h; omega))
        (by intro y hy; cases hy)
      simp only [List.append_assoc, List.append_nil] at hmid
      exact hmid

/-- C8.  `_prioritize_rules` is a stable sort by the category priority
1 (security) < 2 (testing) < 3 (performance) < 4 (style/documentation)
< 5 (general): the output is exactly the concatenation of the five
priority classes, each in original insertion order; and on a concrete
[general, security, performance] input the order comes out
[security, performance, general]. -/
theorem prioritize_rules_stable_sort :
    (∀ (rules : List String) (cfg : Entries),
      prioritizeRules rules cfg = priorityBuckets rules)
    ∧ prioritizeRules
        ["Следуй принципам SOLID при разработке",
         "Никогда не храни пароли и секретные ключи в коде",
         "Применяй useCallback и useMemo для оптимизации"] []
      = ["Никогда не храни пароли и секретные ключи в коде",
         "Применяй useCallback и useMemo для оптимизации",
         "Следуй принципам SOLID при разработке"] :=
  ⟨prioritizeRules_eq_buckets, rfl⟩

/-! ## C5: the memory tiers are chained by elif -/

theorem optBind_some {α β : Type} (a : α) (f : α → Option β) :
    Option.bind (some a) f = f a := rfl

theorem dictGet_dictUpdate_not_mem : ∀ {e : Entries} {key : String},
    (∀ p ∈ e, p.1 ≠ key) → ∀ d : Entries,
    dictGet (dictUpdate d e) key = dictGet d key := by
  intro e
  induction e with
  | nil => intro key _ d; rfl
  | cons p rest ih =>
    intro key h d
    obtain ⟨pk, pv⟩ := p
    have e1 : dictUpdate d ((pk, pv) :: rest) = dictUpdate (dictSet d pk pv) rest := rfl
    rw [e1, ih (fun q hq => h q (List.mem_cons_of_mem _ hq)),
      dictGet_dictSet_ne _ (h (pk, pv) (List.mem_cons_self _ _))]

/-- A performance issue the remediation loop can read: a dict carrying
`type` and `severity`. -/
def issueWF (v : Val) : Bool :=
  match v with
  | .dict d => (dictGet d "type").isSome && (dictGet d "severity").isSome
  | _ => false

theorem issuesLoop_preserves : ∀ (issues : List Val) (cline : Entries),
    (∀ i ∈ issues, issueWF i = true) →
    ∃ c2, issuesLoop cline issues = some c2
      ∧ dictGet c2 "contextWindow" = dictGet cline "contextWindow"
      ∧ dictGet c2 "maxCacheSize" = dictGet cline "maxCacheSize" := by
  intro issues
  induction issues with
  | nil => intro cline _; exact ⟨cline, rfl, rfl, rfl⟩
  | cons i rest ih =>
    intro cline h
    have hi := h i (List.mem_cons_self _ _)
    have hrest : ∀ j ∈ rest, issueWF j = true :=
      fun j hj => h j (List.mem_cons_of_mem _ hj)
    rcases i with q | s | b | xs | d
    · simp [issueWF] at hi
    · simp [issueWF] at hi
    · simp [issueWF] at hi
    · simp [issueWF] at hi
    rw [issueWF, Bool.and_eq_true] at hi
    rcases ht : dictGet d "type" with _ | t
    · rw [ht] at hi; simp at hi
    rcases hs : dictGet d "severity" with _ | sv
    · rw [hs] at hi; simp at hi
    have estep : issuesLoop cline (Val.dict d :: rest) =
        Option.bind (dictGet d "type") (fun t =>
          if vEqStr t "memory" then
            Option.bind (dictGet d "severity") (fun s =>
              if vEqStr s "high" then
                issuesLoop (dictSet (dictSet cline "memoryOptimization" (.bool true))
                  "enableCaching" (.bool false)) rest
              else issuesLoop cline rest)
          else if vEqStr t "cpu" then
            Option.bind (dictGet d "severity") (fun s =>
              if vEqStr s "high" then
                issuesLoop (dictSet (dictSet cline "parallelProcessing" (.bool false))
                  "maxResponseTokens" (.num 4096)) rest
              else issuesLoop cline rest)
          else issuesLoop cline rest) := rfl
    rw [estep, ht, optBind_some]
    by_cases hm : vEqStr t "memory" = true
    · simp only [hm, if_true, hs, optBind_some]
      by_cases hh : vEqStr sv "high" = true
      · simp only [hh, if_true]
        obtain ⟨c2, hc2, hcw, hmcs⟩ := ih _ hrest
        refine ⟨c2, hc2, ?_, ?_⟩
        · rw [hcw, dictGet_dictSet_ne _ (by decide), dictGet_dictSet_ne _ (by decide)]
        · rw [hmcs, dictGet_dictSet_ne _ (by decide), dictGet_dictSet_ne _ (by decide)]
      · simp only [hh, Bool.false_eq_true, if_false]
        exact ih _ hrest
    · simp only [hm, Bool.false_eq_true, if_false]
      by_cases hc : vEqStr t "cpu" = true
      · simp only [hc, if_true, hs, optBind_some]
        by_cases hh : vEqStr sv "high" = true
        · simp only [hh, if_true]
          obtain ⟨c2, hc2, hcw, hmcs⟩ := ih _ hrest
          refine ⟨c2, hc2, ?_, ?_⟩
          · rw [hcw, dictGet_dictSet_ne _ (by decide), dictGet_dictSet_ne _ (by decide)]
          · rw [hmcs, dictGet_dictSet_ne _ (by decide), dictGet_dictSet_ne _ (by decide)]
        · simp only [hh, Bool.false_eq_true, if_false]
          exact ih _ hrest
      · simp only [hc, Bool.false_eq_true, if_false]
        exact ih _ hrest

/-- A performance snapshot with symbolic metric values, shaped as the C5
claim's snapshots are. -/
def perfInput (percent total cpuPercent cpuCount : ℚ) (issues : List Val) : Entries :=
  [("system_metrics", .dict [
      ("memory", .dict [("percent", .num percent), ("total", .num total)]),
      ("cpu", .dict [("percent", .num cpuPercent), ("count", .num cpuCount)])]),
   ("performance_issues", .list issues)]

/-- The C5 counterexample snapshot: memory.percent = 85 together with
total = 17·2^30 bytes (more than 16 GiB). -/
def c5PerformanceData : Entries := perfInput 85 (17 * 1024 ^ 3) 0 8 []

/-- C5 counterexample: with percent = 85 and total = 17 GiB the
`elif` keeps the high-memory tier from firing — the layer carries the
low-memory contextWindow 100000, not the high-memory 300000. -/
theorem c5_high_memory_suppressed_counterexample :
    getCline (adaptForPerformance c5PerformanceData) "contextWindow" = some (.num 100000)
    ∧ getCline (adaptForPerformance c5PerformanceData) "contextWindow"
        ≠ some (.num 300000) := by
  constructor
  · rfl
  · intro h
    have h0 : getCline (adaptForPerformance c5PerformanceData) "contextWindow"
        = some (.num 100000) := rfl
    rw [h0] at h
    have h1 := Option.some.inj h
    have h2 : (100000 : ℚ) = 300000 := by injection h1
    norm_num at h2

theorem adaptForPerformance_perfInput_eq (p t cp cc : ℚ) (iss : List Val) :
    adaptForPerformance (perfInput p t cp cc iss) =
      Option.bind (issuesLoop
        (if cp > 80 || cc < 4 then
           dictUpdate (if p > 80 || t / 1024 ^ 3 < 4 then dictUpdate [] lowMemorySettings
             else if t / 1024 ^ 3 > 16 then dictUpdate [] highMemorySettings else [])
             lowCpuSettings
         else if cc > 8 then
           dictUpdate (if p > 80 || t / 1024 ^ 3 < 4 then dictUpdate [] lowMemorySettings
             else if t / 1024 ^ 3 > 16 then dictUpdate [] highMemorySettings else [])
             highCpuSettings
         else (if p > 80 || t / 1024 ^ 3 < 4 then dictUpdate [] lowMemorySettings
             else if t / 1024 ^ 3 > 16 then dictUpdate [] highMemorySettings else []))
        iss)
        (fun c3 => some [("cline_settings", Val.dict c3)]) := rfl

/-- C5 amended: the two memory conditions are chained by `elif`, so the
high-memory tier is applied exactly when the low-memory condition does not
fire; under `percent ≤ 80` and `total/2^30 > 16` (which rules out
`total/2^30 < 4`) the layer carries the high-memory contextWindow 300000
and maxCacheSize 200, whatever the cpu metrics and (well-formed) issues. -/
theorem c5_high_memory_tier (percent total cpuPercent cpuCount : ℚ) (issues : List Val)
    (hp : percent ≤ 80) (ht : total / 1024 ^ 3 > 16)
    (hiss : ∀ i ∈ issues, issueWF i = true) :
    getCline (adaptForPerformance
        (perfInput percent total cpuPercent cpuCount issues)) "contextWindow"
      = some (.num 300000)
    ∧ getCline (adaptForPerformance
        (perfInput percent total cpuPercent cpuCount issues)) "maxCacheSize"
      = some (.num 200) := by
  have hd1 : decide (percent > 80) = false := decide_eq_false (by linarith)
  have hd2 : decide (total / 1024 ^ 3 < 4) = false := decide_eq_false (by linarith)
  have hmem : (if percent > 80 || total / 1024 ^ 3 < 4 then dictUpdate [] lowMemorySettings
      else if total / 1024 ^ 3 > 16 then dictUpdate [] highMemorySettings else [])
      = dictUpdate [] highMemorySettings := by
    simp only [hd1, hd2, Bool.or_self, Bool.false_eq_true, if_false]
    exact if_pos ht
  have hcl1cw : dictGet (dictUpdate [] highMemorySettings) "contextWindow"
      = some (.num 300000) := rfl
  have hcl1cs : dictGet (dictUpdate [] highMemorySettings) "maxCacheSize"
      = some (.num 200) := rfl
  have hlowcw : ∀ d : Entries, dictGet (dictUpdate d lowCpuSettings) "contextWindow"
      = dictGet d "contextWindow" := dictGet_dictUpdate_not_mem (by decide)
  have hlowcs : ∀ d : Entries, dictGet (dictUpdate d lowCpuSettings) "maxCacheSize"
      = dictGet d "maxCacheSize" := dictGet_dictUpdate_not_mem (by decide)
  have hhighcw : ∀ d : Entries, dictGet (dictUpdate d highCpuSettings) "contextWindow"
      = dictGet d "contextWindow" := dictGet_dictUpdate_not_mem (by decide)
  have hhighcs : ∀ d : Entries, dictGet (dictUpdate d highCpuSettings) "maxCacheSize"
      = dictGet d "maxCacheSize" := dictGet_dictUpdate_not_mem (by decide)
  have hcpu : ∀ cl2 : Entries,
      (cl2 = dictUpdate (dictUpdate [] highMemorySettings) lowCpuSettings
        ∨ cl2 = dictUpdate (dictUpdate [] highMemorySettings) highCpuSettings
        ∨ cl2 = dictUpdate [] highMemorySettings) →
      dictGet cl2 "contextWindow" = some (.num 300000)
        ∧ dictGet cl2 "maxCacheSize" = some (.num 200) := by
    rintro cl2 (rfl | rfl | rfl)
    · exact ⟨(hlowcw _).trans hcl1cw, (hlowcs _).trans hcl1cs⟩
    · exact ⟨(hhighcw _).trans hcl1cw, (hhighcs _).trans hcl1cs⟩
    · exact ⟨hcl1cw, hcl1cs⟩
  rw [adaptForPerformance_perfInput_eq, hmem]
  set cl2 := (if cpuPercent > 80 || cpuCount < 4 then
      dictUpdate (dictUpdate [] highMemorySettings) lowCpuSettings
    else if cpuCount > 8 then
      dictUpdate (dictUpdate [] highMemorySettings) highCpuSettings
    else dictUpdate [] highMemorySettings) with hcl2
  have hcl2cases : cl2 = dictUpdate (dictUpdate [] highMemorySettings) lowCpuSettings
      ∨ cl2 = dictUpdate (dictUpdate [] highMemorySettings) highCpuSettings
      ∨ cl2 = dictUpdate [] highMemorySettings := by
    rw [hcl2]
    by_cases h1 : (decide (cpuPercent > 80) || decide (cpuCount < 4)) = true
    · left; rw [if_pos h1]
    · right
      by_cases h2 : cpuCount > 8
      · left; rw [if_neg h1, if_pos h2]
      · right; rw [if_neg h1, if_neg h2]
  obtain ⟨hcw2, hcs2⟩ := hcpu cl2 hcl2cases
  obtain ⟨c3, hc3, hcw3, hcs3⟩ := issuesLoop_preserves issues cl2 hiss
  rw [hc3, optBind_some]
  constructor
  · show dictGet c3 "contextWindow" = some (Val.num 300000)
    rw [hcw3]; exact hcw2
  · show dictGet c3 "maxCacheSize" = some (Val.num 200)
    rw [hcs3]; exact hcs2

theorem c5_high_memory_tier_witness :
    getCline (adaptForPerformance (perfInput 50 (17 * 1024 ^ 3) 0 8 [])) "contextWindow"
      = some (.num 300000) :=
  (c5_high_memory_tier 50 (17 * 1024 ^ 3) 0 8 [] (by norm_num) (by norm_num)
    (by intro i hi; cases hi)).1

/-- A snapshot whose project structure gives an unknown project type and
the stated language list — the C6 scenario. -/
def c6Input (langs : List Val) : Entries :=
  [("project_structure", .dict [
      ("project_type", .str "unknown"),
      ("languages", .list langs)])]

/-- C6 counterexample: languages = ['ruby', 'python'] contains the
catalogued language 'python', yet the layer is empty — only languages[0]
is consulted, an uncatalogued head hides every catalogued tail entry. -/
theorem c6_first_matching_language_counterexample :
    adaptForProjectType (c6Input [Val.str "ruby", Val.str "python"])
        = some [("cline_settings", Val.dict [])]
    ∧ (lookupCatalog projectSpecificSettings "python").isSome = true
    ∧ lookupCatalog projectSpecificSettings "ruby" = none :=
  ⟨rfl, rfl, rfl⟩

theorem adaptForProjectType_c6_eq (s : String) (rest : List Val) :
    adaptForProjectType (c6Input (Val.str s :: rest)) =
      (match lookupCatalog projectSpecificSettings s with
       | some langSettings =>
         Option.bind (isWebProject [("project_type", Val.str "unknown"),
             ("languages", Val.list (Val.str s :: rest))])
           (fun web => some [("cline_settings", Val.dict
             (if web then dictUpdate (dictUpdate [] langSettings)
                 ((lookupCatalog projectSpecificSettings "web").getD [])
              else dictUpdate [] langSettings))])
       | none =>
         Option.bind (isWebProject [("project_type", Val.str "unknown"),
             ("languages", Val.list (Val.str s :: rest))])
           (fun web => some [("cline_settings", Val.dict
             (if web then dictUpdate []
                 ((lookupCatalog projectSpecificSettings "web").getD [])
              else []))])) := rfl

/-- C6 amended: the language-specific settings come from `languages[0]`
alone; when the head language has a catalog entry (and no web indicators,
unknown project type), the layer is exactly that entry, whatever the rest
of the list holds. -/
theorem c6_head_language_selection (s : String) (cat : Entries) (rest : List Val)
    (hcat : lookupCatalog projectSpecificSettings s = some cat)
    (hweb : isWebProject [("project_type", Val.str "unknown"),
        ("languages", Val.list (Val.str s :: rest))] = some false) :
    adaptForProjectType (c6Input (Val.str s :: rest))
      = some [("cline_settings", Val.dict (dictUpdate [] cat))] := by
  rw [adaptForProjectType_c6_eq, hcat, hweb]
  rfl

theorem c6_head_language_selection_witness :
    adaptForProjectType (c6Input [Val.str "python", Val.str "ruby"])
      = some [("cline_settings", Val.dict (dictUpdate []
          [("codeStyle", Val.dict [
              ("indentation", Val.num 4), ("quotes", Val.str "double"),
              ("lineLength", Val.num 88)]),
           ("linting", Val.dict [
              ("enableFlake8", Val.bool true), ("enableBlack", Val.bool true),
              ("enableMypy", Val.bool true)]),
           ("testing", Val.dict [
              ("framework", Val.str "pytest"), ("coverage", Val.bool true),
              ("autoDiscovery", Val.bool true)])]))] :=
  c6_head_language_selection "python" _ [Val.str "ruby"] rfl rfl

/-! ## The nested performance invariant (claim C10) -/

theorem keys_ne_of_dictGet_none {e : Entries} {k : String}
    (he : dictGet e k = none) : ∀ p ∈ e, p.1 ≠ k := by
  intro p hp hk
  exact not_mem_of_dictGet_none he (hk ▸ List.mem_map_of_mem Prod.fst hp)

theorem dictGet_dictUpdate_none {e : Entries} {k : String}
    (he : dictGet e k = none) (d : Entries) (hd : dictGet d k = none) :
    dictGet (dictUpdate d e) k = none :=
  (dictGet_dictUpdate_not_mem (keys_ne_of_dictGet_none he) d).trans hd

theorem lookupCatalog_mem_snd : ∀ {cat : List (String × Entries)} {k : String} {e : Entries},
    lookupCatalog cat k = some e → e ∈ cat.map Prod.snd := by
  intro cat
  induction cat with
  | nil => intro k e h; cases h
  | cons p rest ih =>
    intro k e h
    obtain ⟨pk, pv⟩ := p
    rw [lookupCatalog] at h
    by_cases hp : pk = k
    · rw [if_pos hp] at h
      cases h
      exact List.mem_cons_self _ _
    · rw [if_neg hp] at h
      exact List.mem_cons_of_mem _ (ih h)

theorem projectSpecificSettings_no_perf :
    ∀ e ∈ projectSpecificSettings.map Prod.snd, dictGet e "performance" = none := by
  intro e he
  simp only [projectSpecificSettings, List.map_cons, List.map_nil, List.mem_cons,
    List.not_mem_nil, or_false] at he
  rcases he with rfl | rfl | rfl | rfl <;> rfl

theorem adaptForProjectType_shape : ∀ {cd p : Entries},
    adaptForProjectType cd = some p →
    ∃ c, p = [("cline_settings", Val.dict c)] ∧ dictGet c "performance" = none := by
  intro cd p h
  unfold adaptForProjectType at h
  rcases hE : asEntries (dictGetD cd "project_structure" (Val.dict [])) with _ | ps
  · rw [hE] at h; exact Option.noConfusion h
  rw [hE] at h
  simp only [Option.bind_eq_bind, Option.some_bind] at h
  have hK : ∀ cline1 : Entries, dictGet cline1 "performance" = none →
      ((isWebProject ps).bind fun web =>
        some [("cline_settings", Val.dict
          (if web = true then
            dictUpdate
              (match dictGetD ps "project_type" (Val.str "unknown") with
               | Val.str s =>
                 match lookupCatalog projectSpecificSettings s with
                 | some typeSettings => dictUpdate cline1 typeSettings
                 | none => cline1
               | x => cline1)
              ((lookupCatalog projectSpecificSettings "web").getD [])
          else
            match dictGetD ps "project_type" (Val.str "unknown") with
            | Val.str s =>
              match lookupCatalog projectSpecificSettings s with
              | some typeSettings => dictUpdate cline1 typeSettings
              | none => cline1
            | x => cline1))]) = some p →
      ∃ c, p = [("cline_settings", Val.dict c)] ∧ dictGet c "performance" = none := by
    intro cline1 hc1 hk
    rcases hW : isWebProject ps with _ | web
    · rw [hW] at hk; exact Option.noConfusion hk
    rw [hW] at hk
    simp only [Option.some_bind] at hk
    cases hk
    refine ⟨_, rfl, ?_⟩
    repeat' first
      | rfl
      | exact hc1
      | exact projectSpecificSettings_no_perf _ (lookupCatalog_mem_snd (by assumption))
      | refine dictGet_dictUpdate_none ?_ _ ?_
      | split
  split at h
  · rcases hL : asList (dictGetD ps "languages" (Val.list [])) with _ | langs
    · rw [hL] at h; exact Option.noConfusion h
    rw [hL] at h
    simp only [Option.some_bind] at h
    split at h
    · exact hK [] rfl h
    · split at h
      · split at h
        · rename_i langSettings heq
          exact hK (dictUpdate [] langSettings) (dictGet_dictUpdate_none
            (projectSpecificSettings_no_perf _ (lookupCatalog_mem_snd heq)) _ rfl) h
        · exact hK [] rfl h
      · exact hK [] rfl h
  · exact hK [] rfl h

theorem issuesLoop_perf_stable : ∀ (issues : List Val) (cline c2 : Entries),
    issuesLoop cline issues = some c2 →
    dictGet c2 "performance" = dictGet cline "performance" := by
  intro issues
  induction issues with
  | nil =>
    intro cline c2 h
    rw [show issuesLoop cline [] = some cline from rfl] at h
    cases h; rfl
  | cons i rest ih =>
    intro cline c2 h
    rcases i with q | s | b | xs | d
    · exact Option.noConfusion h
    · exact Option.noConfusion h
    · exact Option.noConfusion h
    · exact Option.noConfusion h
    have estep : issuesLoop cline (Val.dict d :: rest) =
        Option.bind (dictGet d "type") (fun t =>
          if vEqStr t "memory" then
            Option.bind (dictGet d "severity") (fun s =>
              if vEqStr s "high" then
                issuesLoop (dictSet (dictSet cline "memoryOptimization" (.bool true))
                  "enableCaching" (.bool false)) rest
              else issuesLoop cline rest)
          else if vEqStr t "cpu" then
            Option.bind (dictGet d "severity") (fun s =>
              if vEqStr s "high" then
                issuesLoop (dictSet (dictSet cline "parallelProcessing" (.bool false))
                  "maxResponseTokens" (.num 4096)) rest
              else issuesLoop cline rest)
          else issuesLoop cline rest) := rfl
    rw [estep] at h
    rcases ht : dictGet d "type" with _ | t
    · rw [ht] at h; exact Option.noConfusion h
    rw [ht, optBind_some] at h
    by_cases hm : vEqStr t "memory" = true
    · simp only [hm, if_true] at h
      rcases hs : dictGet d "severity" with _ | sv
      · rw [hs] at h; exact Option.noConfusion h
      rw [hs, optBind_some] at h
      by_cases hh : vEqStr sv "high" = true
      · simp only [hh, if_true] at h
        rw [ih _ _ h, dictGet_dictSet_ne _ (by decide), dictGet_dictSet_ne _ (by decide)]
      · simp only [hh, Bool.false_eq_true, if_false] at h
        exact ih _ _ h
    · simp only [hm, Bool.false_eq_true, if_false] at h
      by_cases hc : vEqStr t "cpu" = true
      · simp only [hc, if_true] at h
        rcases hs : dictGet d "severity" with _ | sv
        · rw [hs] at h; exact Option.noConfusion h
        rw [hs, optBind_some] at h
        by_cases hh : vEqStr sv "high" = true
        · simp only [hh, if_true] at h
          rw [ih _ _ h, dictGet_dictSet_ne _ (by decide), dictGet_dictSet_ne _ (by decide)]
        · simp only [hh, Bool.false_eq_true, if_false] at h
          exact ih _ _ h
      · simp only [hc, Bool.false_eq_true, if_false] at h
        exact ih _ _ h

theorem adaptForPerformance_shape : ∀ {pd p : Entries},
    adaptForPerformance pd = some p →
    ∃ c, p = [("cline_settings", Val.dict c)] ∧ dictGet c "performance" = none := by
  intro pd p h
  unfold adaptForPerformance at h
  rcases hS : asEntries (dictGetD pd "system_metrics" (.dict [])) with _ | sm
  · rw [hS] at h; exact Option.noConfusion h
  rw [hS] at h
  simp only [Option.bind_eq_bind, Option.some_bind] at h
  have hfin : ∀ (X : Entries), dictGet X "performance" = none →
      ∀ (issues : List Val),
      Option.bind (issuesLoop X issues) (fun cline3 =>
        some [("cline_settings", Val.dict cline3)]) = some p →
      ∃ c, p = [("cline_settings", Val.dict c)] ∧ dictGet c "performance" = none := by
    intro X hX issues hb
    rcases hIL : issuesLoop X issues with _ | c3
    · rw [hIL] at hb; exact Option.noConfusion hb
    rw [hIL, optBind_some] at hb
    cases hb
    exact ⟨c3, rfl, (issuesLoop_perf_stable issues X c3 hIL).trans hX⟩
  by_cases hne : (!truthy (Val.dict sm)) = true
  · rw [if_pos hne] at h; cases h; exact ⟨[], rfl, rfl⟩
  · rw [if_neg hne] at h
    rcases hM : asEntries (dictGetD sm "memory" (.dict [])) with _ | mi
    · rw [hM] at h; exact Option.noConfusion h
    rw [hM] at h; simp only [Option.some_bind] at h
    rcases hC : asEntries (dictGetD sm "cpu" (.dict [])) with _ | ci
    · rw [hC] at h; exact Option.noConfusion h
    rw [hC] at h; simp only [Option.some_bind] at h
    rcases hP : asNum (dictGetD mi "percent" (.num 0)) with _ | mp
    · rw [hP] at h; exact Option.noConfusion h
    rw [hP] at h; simp only [Option.some_bind] at h
    rcases hT : asNum (dictGetD mi "total" (.num 0)) with _ | mt
    · rw [hT] at h; exact Option.noConfusion h
    rw [hT] at h; simp only [Option.some_bind] at h
    rcases hCP : asNum (dictGetD ci "percent" (.num 0)) with _ | cp
    · rw [hCP] at h; exact Option.noConfusion h
    rw [hCP] at h; simp only [Option.some_bind] at h
    rcases hCC : asNum (dictGetD ci "count" (.num 1)) with _ | cc
    · rw [hCC] at h; exact Option.noConfusion h
    rw [hCC] at h; simp only [Option.some_bind] at h
    rcases hI : asList (dictGetD pd "performance_issues" (.list [])) with _ | issues
    · rw [hI] at h; exact Option.noConfusion h
    rw [hI] at h; simp only [Option.some_bind] at h
    refine hfin _ ?_ _ h
    repeat' first
      | rfl
      | refine dictGet_dictUpdate_none ?_ _ ?_
      | split

theorem adaptForProjectScale_shape : ∀ {cd p : Entries},
    adaptForProjectScale cd = some p →
    ∃ c, p = [("cline_settings", Val.dict c)] ∧ dictGet c "performance" = none := by
  intro cd p h
  unfold adaptForProjectScale at h
  rcases hE : asEntries (dictGetD cd "project_structure" (.dict [])) with _ | ps
  · rw [hE] at h; exact Option.noConfusion h
  rw [hE] at h
  simp only [Option.bind_eq_bind, Option.some_bind] at h
  rcases hT : asNum (dictGetD ps "total_files" (.num 0)) with _ | tf
  · rw [hT] at h; exact Option.noConfusion h
  rw [hT] at h; simp only [Option.some_bind] at h
  rcases hL : asList (dictGetD ps "languages" (.list [])) with _ | langs
  · rw [hL] at h; exact Option.noConfusion h
  rw [hL] at h; simp only [Option.some_bind] at h
  have hfin : ∀ (X : Entries), dictGet X "performance" = none →
      Option.bind (asNum (dictGetD X "contextWindow" (.num 200000))) (fun cw =>
        some [("cline_settings", Val.dict (dictUpdate X
          [("contextWindow", .num (cw + 50000)), ("maxResponseTokens", .num 10240)]))])
        = some p →
      ∃ c, p = [("cline_settings", Val.dict c)] ∧ dictGet c "performance" = none := by
    intro X hX hb
    rcases hw : asNum (dictGetD X "contextWindow" (.num 200000)) with _ | cw
    · rw [hw] at hb; exact Option.noConfusion hb
    rw [hw, optBind_some] at hb
    cases hb
    refine ⟨_, rfl, ?_⟩
    refine dictGet_dictUpdate_none ?_ _ hX
    rfl
  split at h
  · refine hfin _ ?_ h
    repeat' first
      | rfl
      | refine dictGet_dictUpdate_none ?_ _ ?_
      | split
  · cases h
    refine ⟨_, rfl, ?_⟩
    repeat' first
      | rfl
      | refine dictGet_dictUpdate_none ?_ _ ?_
      | split

theorem adaptForUsagePatterns_shape : ∀ {cd pd p : Entries},
    adaptForUsagePatterns cd pd = some p →
    ∃ c, p = [("cline_settings", Val.dict c)] ∧ dictGet c "performance" = none := by
  intro cd pd p h
  unfold adaptForUsagePatterns at h
  rcases hU : asEntries (dictGetD cd "usage_patterns" (.dict [])) with _ | up
  · rw [hU] at h; exact Option.noConfusion h
  rw [hU] at h
  simp only [Option.bind_eq_bind, Option.some_bind] at h
  rcases hS : asNum (dictGetD up "sessions_count" (.num 0)) with _ | sc
  · rw [hS] at h; exact Option.noConfusion h
  rw [hS] at h; simp only [Option.some_bind] at h
  rcases hEP : asList (dictGetD up "error_patterns" (.list [])) with _ | eps
  · rw [hEP] at h; exact Option.noConfusion h
  rw [hEP] at h; simp only [Option.some_bind] at h
  cases h
  refine ⟨_, rfl, ?_⟩
  repeat' first
    | rfl
    | refine dictGet_dictUpdate_none ?_ _ ?_
    | split

theorem preserveUserSettings_shape : ∀ {cd p : Entries},
    preserveUserSettings cd = some p →
    ∃ c, p = [("cline_settings", Val.dict c)] ∧ dictGet c "performance" = none := by
  intro cd p h
  unfold preserveUserSettings at h
  rcases hV : asEntries (dictGetD cd "vscode_settings" (.dict [])) with _ | vs
  · rw [hV] at h; exact Option.noConfusion h
  rw [hV] at h
  simp only [Option.bind_eq_bind, Option.some_bind] at h
  rcases hCur : asEntries (dictGetD vs "cline_settings" (.dict [])) with _ | cur
  · rw [hCur] at h; exact Option.noConfusion h
  rw [hCur] at h; simp only [Option.some_bind] at h
  cases h
  refine ⟨_, rfl, ?_⟩
  simp only [List.foldl_cons, List.foldl_nil]
  repeat' first
    | rfl
    | (rw [dictGet_dictSet_ne _ (by decide)])
    | split

/-- The literal `default_settings['cline_settings']['performance']`. -/
def defaultPerformance : Entries :=
  [("enableCaching", .bool true), ("maxCacheSize", .num 100),
   ("parallelProcessing", .bool false), ("memoryOptimization", .bool false)]

theorem generateVscodeConfig_none {ac cd vc cs : Entries}
    (hcs : dictGet ac "cline_settings" = some (Val.dict cs))
    (hperf : dictGet cs "performance" = some (Val.dict defaultPerformance))
    (h : generateVscodeConfig ac cd = some vc) :
    dictGet vc "cline_settings" = none ∧ dictGet vc "files.watcherExclude" = none := by
  unfold generateVscodeConfig at h
  rcases hE : asEntries (dictGetD cd "project_structure" (.dict [])) with _ | ps
  · rw [hE] at h; exact Option.noConfusion h
  rw [hE] at h
  simp only [Option.bind_eq_bind, Option.some_bind] at h
  rcases hL : asList (dictGetD ps "languages" (.list [])) with _ | langs
  · rw [hL] at h; exact Option.noConfusion h
  rw [hL] at h; simp only [Option.some_bind] at h
  rw [show dictGetD ac "cline_settings" (Val.dict []) = Val.dict cs by
    rw [dictGetD, hcs]; rfl] at h
  simp only [asEntries, Option.some_bind] at h
  rw [show dictGetD cs "performance" (Val.dict []) = Val.dict defaultPerformance by
    rw [dictGetD, hperf]; rfl] at h
  simp only [asEntries, Option.some_bind] at h
  rw [show optTruthy (dictGet defaultPerformance "memoryOptimization") = false from rfl] at h
  simp only [Bool.false_eq_true, if_false] at h
  split at h
  · rcases hSty : dictGetD cs "codeStyle" (Val.dict []) with q | st | b | xs | csty
    case num => rw [hSty] at h; exact Option.noConfusion h
    case str => rw [hSty] at h; exact Option.noConfusion h
    case bool => rw [hSty] at h; exact Option.noConfusion h
    case list => rw [hSty] at h; exact Option.noConfusion h
    rw [hSty] at h; simp only [Option.some_bind] at h
    cases h
    constructor
    all_goals
      repeat' first
        | rfl
        | refine dictGet_dictUpdate_none ?_ _ ?_
        | split
  · cases h
    constructor
    all_goals
      repeat' first
        | rfl
        | refine dictGet_dictUpdate_none ?_ _ ?_
        | split



theorem merge_layer_step (c : Entries) {r a : Entries}
    (ha : dictGet r "cline_settings" = some (Val.dict a))
    (hw : dictGet r "files.watcherExclude" = none) :
    dictGet (mergeSettings r [("cline_settings", Val.dict c)]) "cline_settings"
        = some (Val.dict (mergeSettings a c))
    ∧ dictGet (mergeSettings r [("cline_settings", Val.dict c)]) "files.watcherExclude"
        = none := by
  constructor
  · have hnd : NodupKeys [("cline_settings", Val.dict c)] := List.nodup_singleton _
    rw [dictGet_mergeSettings hnd r "cline_settings", ha]
    exact combine_dict_dict a c _ rfl
  · rw [dictGet_mergeSettings_none (by rfl) r]
    exact hw

theorem merge_perf_keep {a c : Entries}
    (hperf : dictGet a "performance" = some (Val.dict defaultPerformance))
    (hc : dictGet c "performance" = none) :
    dictGet (mergeSettings a c) "performance" = some (Val.dict defaultPerformance) := by
  rw [dictGet_mergeSettings_none hc a]
  exact hperf

/-- C10: no computed layer writes a key inside the nested `performance`
mapping, so the final `cline_settings.performance` is exactly the default
(with `memoryOptimization = false`), and `_generate_vscode_config` never
adds the `files.watcherExclude` memory-optimization settings. -/
theorem nested_performance_untouched :
    ∀ {configData performanceData R : Entries},
    generateAdaptiveConfig configData performanceData = some R →
    ∃ a, dictGet R "cline_settings" = some (Val.dict a)
      ∧ dictGet a "performance" = some (Val.dict defaultPerformance)
      ∧ dictGet defaultPerformance "memoryOptimization" = some (Val.bool false)
      ∧ dictGet R "files.watcherExclude" = none := by
  intro cfg pd R h
  unfold generateAdaptiveConfig at h
  rcases h1 : adaptForProjectType cfg with _ | p1
  · rw [h1] at h; exact Option.noConfusion h
  rw [h1] at h
  simp only [Option.bind_eq_bind, Option.some_bind] at h
  rcases h2 : adaptForPerformance pd with _ | p2
  · rw [h2] at h; exact Option.noConfusion h
  rw [h2] at h; simp only [Option.some_bind] at h
  rcases h3 : adaptForProjectScale cfg with _ | p3
  · rw [h3] at h; exact Option.noConfusion h
  rw [h3] at h; simp only [Option.some_bind] at h
  rcases h4 : adaptForUsagePatterns cfg pd with _ | p4
  · rw [h4] at h; exact Option.noConfusion h
  rw [h4] at h; simp only [Option.some_bind] at h
  rcases h5 : preserveUserSettings cfg with _ | p5
  · rw [h5] at h; exact Option.noConfusion h
  rw [h5] at h; simp only [Option.some_bind] at h
  obtain ⟨l1, rfl, hl1⟩ := adaptForProjectType_shape h1
  obtain ⟨l2, rfl, hl2⟩ := adaptForPerformance_shape h2
  obtain ⟨l3, rfl, hl3⟩ := adaptForProjectScale_shape h3
  obtain ⟨l4, rfl, hl4⟩ := adaptForUsagePatterns_shape h4
  obtain ⟨l5, rfl, hl5⟩ := preserveUserSettings_shape h5
  rw [show deepCopyEntries defaultSettings = defaultSettings from deepCopyEntries_eq _] at h
  obtain ⟨a0, ha0, hp0⟩ :
      ∃ a0, dictGet defaultSettings "cline_settings" = some (Val.dict a0)
        ∧ dictGet a0 "performance" = some (Val.dict defaultPerformance) := ⟨_, rfl, rfl⟩
  have hw0 : dictGet defaultSettings "files.watcherExclude" = none := rfl
  have t1 := merge_layer_step l1 ha0 hw0
  have q1 := merge_perf_keep hp0 hl1
  have t2 := merge_layer_step l2 t1.1 t1.2
  have q2 := merge_perf_keep q1 hl2
  have t3 := merge_layer_step l3 t2.1 t2.2
  have q3 := merge_perf_keep q2 hl3
  have t4 := merge_layer_step l4 t3.1 t3.2
  have q4 := merge_perf_keep q3 hl4
  have t5 := merge_layer_step l5 t4.1 t4.2
  have q5 := merge_perf_keep q4 hl5
  set C5 := mergeSettings (mergeSettings (mergeSettings (mergeSettings (mergeSettings
      defaultSettings [("cline_settings", Val.dict l1)]) [("cline_settings", Val.dict l2)])
      [("cline_settings", Val.dict l3)]) [("cline_settings", Val.dict l4)])
      [("cline_settings", Val.dict l5)] with hC5
  rcases hvc : generateVscodeConfig C5 cfg with _ | vc
  · rw [hvc] at h; exact Option.noConfusion h
  rw [hvc] at h; simp only [Option.some_bind] at h
  cases h
  obtain ⟨gv1, gv2⟩ := generateVscodeConfig_none t5.1 q5 hvc
  refine ⟨_, ?_, q5, rfl, ?_⟩
  · exact (dictGet_dictUpdate_not_mem (keys_ne_of_dictGet_none gv1) C5).trans t5.1
  · exact (dictGet_dictUpdate_not_mem (keys_ne_of_dictGet_none gv2) C5).trans t5.2

theorem nested_performance_untouched_witness :
    ∃ a, dictGet ((generateAdaptiveConfig [] []).getD []) "cline_settings"
        = some (Val.dict a)
      ∧ dictGet a "performance" = some (Val.dict defaultPerformance)
      ∧ dictGet defaultPerformance "memoryOptimization" = some (Val.bool false)
      ∧ dictGet ((generateAdaptiveConfig [] []).getD []) "files.watcherExclude" = none :=
  @nested_performance_untouched [] [] ((generateAdaptiveConfig [] []).getD [])
    (by simp only [generateAdaptiveConfig, mergeSettings_eq_fuel]; rfl)

/-! ## Heap-level embedding of `_deep_copy` and `_merge_settings` (claim C2)

Mutation and aliasing are invisible to the pure embedding above, so the
frame claim gets its own small-step heap model: dicts and lists live in a
store addressed by `Nat`, scalars are immutable values, and every
operation threads the store. -/

inductive HVal : Type where
  | num : ℚ → HVal
  | str : String → HVal
  | bool : Bool → HVal
  | ref : Nat → HVal
deriving Repr, DecidableEq

inductive HObj : Type where
  | dict : List (String × HVal) → HObj
  | list : List HVal → HObj
deriving Repr, DecidableEq

/-- A store: allocated objects                (address, object) with the
first occurrence authoritative, plus the next fresh address. -/
abbrev Store := List (Nat × HObj) × Nat

def heapGet : List (Nat × HObj) → Nat → Option HObj
  | [], _ => none
  | (a, o) :: rest, b => if a = b then some o else heapGet rest b

def heapSet : List (Nat × HObj) → Nat → HObj → List (Nat × HObj)
  | [], a, o => [(a, o)]
  | (a0, o0) :: rest, a, o =>
      if a0 = a then (a0, o) :: rest else (a0, o0) :: heapSet rest a o

/-- Allocate `o` at the next fresh address. -/
def heapAlloc (σ : Store) (o : HObj) : Store := ((σ.2, o) :: σ.1, σ.2 + 1)

def dictGetH : List (String × HVal) → String → Option HVal
  | [], _ => none
  | (k, v) :: rest, key => if k = key then some v else dictGetH rest key

def dictSetH : List (String × HVal) → String → HVal → List (String × HVal)
  | [], key, v => [(key, v)]
  | (k, w) :: rest, key, v =>
      if k = key then (k, v) :: rest else (k, w) :: dictSetH rest key v

/-- `isinstance(v, dict)` on a heap value. -/
def isDictRef (σ : Store) (v : HVal) : Bool :=
  match v with
  | .ref a =>
    match heapGet σ.1 a with
    | some (.dict _) => true
    | _ => false
  | _ => false

/-- The dict comprehension of `_deep_copy`, copying each value with `f`. -/
def hCopyEntriesWith (f : Store → HVal → Option (Store × HVal)) :
    Store → List (String × HVal) → Option (Store × List (String × HVal))
  | σ, [] => some (σ, [])
  | σ, (k, v) :: rest =>
    match f σ v with
    | some (σ2, v2) =>
      match hCopyEntriesWith f σ2 rest with
      | some (σ3, vs) => some (σ3, (k, v2) :: vs)
      | none => none
    | none => none

/-- The list comprehension of `_deep_copy`. -/
def hCopyListWith (f : Store → HVal → Option (Store × HVal)) :
    Store → List HVal → Option (Store × List HVal)
  | σ, [] => some (σ, [])
  | σ, v :: rest =>
    match f σ v with
    | some (σ2, v2) =>
      match hCopyListWith f σ2 rest with
      | some (σ3, vs) => some (σ3, v2 :: vs)
      | none => none
    | none => none

/-- `AdaptiveSettings._deep_copy` on the heap: dicts and lists are rebuilt
as fresh allocations, scalars returned as they are.  The fuel bounds the
recursion depth; a real (terminating) run is any run with enough fuel. -/
def hDeepCopy : Nat → Store → HVal → Option (Store × HVal)
  | 0 => fun _ _ => none
  | Nat.succ fuel => fun σ v =>
    match v with
    | .ref a =>
      match heapGet σ.1 a with
      | some (.dict es) =>
        match hCopyEntriesWith (hDeepCopy fuel) σ es with
        | some (σ2, es2) => some (heapAlloc σ2 (.dict es2), .ref σ2.2)
        | none => none
      | some (.list xs) =>
        match hCopyListWith (hDeepCopy fuel) σ xs with
        | some (σ2, xs2) => some (heapAlloc σ2 (.list xs2), .ref σ2.2)
        | none => none
      | none => none
    | _ => some (σ, v)

/-- The `for key, value in update.items()` loop of `_merge_settings`,
parametrised by the recursive merge `f` and the deep copy `dc`.  Only the
`result` object (address `res`) is ever assigned into. -/
def hMergeLoopWith (f : Store → Nat → Nat → Option (Store × Nat))
    (dc : Store → HVal → Option (Store × HVal)) :
    Store → Nat → List (String × HVal) → Option Store
  | σ, _, [] => some σ
  | σ, res, (key, value) :: rest =>
    match heapGet σ.1 res with
    | some (.dict resE) =>
      match dictGetH resE key with
      | some rv =>
        if isDictRef σ rv && isDictRef σ value then
          match rv, value with
          | .ref ra, .ref va =>
            match f σ ra va with
            | some (σ2, r2) =>
              match heapGet σ2.1 res with
              | some (.dict resE2) =>
                hMergeLoopWith f dc
                  ((heapSet σ2.1 res (.dict (dictSetH resE2 key (.ref r2))), σ2.2)) res rest
              | _ => none
            | none => none
          | _, _ => none
        else
          match dc σ value with
          | some (σ2, v2) =>
            match heapGet σ2.1 res with
            | some (.dict resE2) =>
              hMergeLoopWith f dc
                ((heapSet σ2.1 res (.dict (dictSetH resE2 key v2)), σ2.2)) res rest
            | _ => none
          | none => none
      | none =>
        match dc σ value with
        | some (σ2, v2) =>
          match heapGet σ2.1 res with
          | some (.dict resE2) =>
            hMergeLoopWith f dc
              ((heapSet σ2.1 res (.dict (dictSetH resE2 key v2)), σ2.2)) res rest
          | _ => none
        | none => none
    | _ => none

/-- `AdaptiveSettings._merge_settings` on the heap: deep-copy the base,
then assign every update entry into the fresh copy, merging recursively
when both sides hold dicts.  Arguments are the addresses of the two input
dict objects; the returned address is the result. -/
def hMergeSettings : Nat → Store → Nat → Nat → Option (Store × Nat)
  | 0 => fun _ _ _ => none
  | Nat.succ fuel => fun σ base upd =>
    match hDeepCopy (Nat.succ fuel) σ (.ref base) with
    | some (σ1, .ref res) =>
      match heapGet σ1.1 upd with
      | some (.dict updE) =>
        match hMergeLoopWith (hMergeSettings fuel) (hDeepCopy (Nat.succ fuel)) σ1 res updE with
        | some σ2 => some (σ2, res)
        | none => none
      | _ => none
    | _ => none

/-- The layer fold of `generate_adaptive_config`:
`reduce(_merge_settings, layers, start)` over layer addresses. -/
def hFoldMerge (fuel : Nat) : Store → Nat → List Nat → Option (Store × Nat)
  | σ, start, [] => some (σ, start)
  | σ, start, l :: rest =>
    match hMergeSettings fuel σ start l with
    | some (σ2, r) => hFoldMerge fuel σ2 r rest
    | none => none



/-! ### Store invariants -/

/-- Every allocated address lies below the fresh-address counter. -/
def storeWF (σ : Store) : Bool := σ.1.all (fun p => p.1 < σ.2)

/-- The addresses directly referenced by an object. -/
def objRefs : HObj → List Nat
  | .dict es => es.filterMap (fun p => match p.2 with | .ref a => some a | _ => none)
  | .list xs => xs.filterMap (fun v => match v with | .ref a => some a | _ => none)

/-- All addresses below `n` hold the same object in both stores. -/
def frameLe (n : Nat) (σ σ2 : Store) : Prop :=
  ∀ a, a < n → heapGet σ2.1 a = heapGet σ.1 a

/-- Frame up to `n`, except at the single address `res`. -/
def frameExcept (n res : Nat) (σ σ2 : Store) : Prop :=
  ∀ a, a < n → a ≠ res → heapGet σ2.1 a = heapGet σ.1 a

/-- Objects at addresses `≥ n` only reference addresses `≥ n`. -/
def regionClosed (n : Nat) (σ : Store) : Prop :=
  ∀ a o, n ≤ a → heapGet σ.1 a = some o → ∀ b ∈ objRefs o, n ≤ b

theorem heapGet_cons_ne {b a : Nat} (h : b ≠ a) (o : HObj) (m : List (Nat × HObj)) :
    heapGet ((b, o) :: m) a = heapGet m a := by
  rw [heapGet, if_neg h]

theorem heapGet_heapSet_self : ∀ (m : List (Nat × HObj)) (c : Nat) (o : HObj),
    heapGet (heapSet m c o) c = some o := by
  intro m c o
  induction m with
  | nil => simp [heapSet, heapGet]
  | cons p rest ih =>
    obtain ⟨a0, o0⟩ := p
    by_cases h : a0 = c
    · simp [heapSet, heapGet, h]
    · simp [heapSet, heapGet, h, ih]

theorem heapGet_heapSet_ne : ∀ {m : List (Nat × HObj)} {c a : Nat}, c ≠ a → ∀ (o : HObj),
    heapGet (heapSet m c o) a = heapGet m a := by
  intro m
  induction m with
  | nil =>
    intro c a h o
    show heapGet [(c, o)] a = none
    rw [heapGet, if_neg h]
    rfl
  | cons p rest ih =>
    intro c a h o
    obtain ⟨a0, o0⟩ := p
    rw [heapSet]
    by_cases h0 : a0 = c
    · rw [if_pos h0]
      subst h0
      rw [heapGet_cons_ne h, heapGet_cons_ne h]
    · rw [if_neg h0, heapGet, heapGet]
      by_cases h1 : a0 = a
      · rw [if_pos h1, if_pos h1]
      · rw [if_neg h1, if_neg h1]
        exact ih h o

theorem storeWF_lt : ∀ {σ : Store}, storeWF σ = true →
    ∀ {a : Nat} {o : HObj}, heapGet σ.1 a = some o → a < σ.2 := by
  intro σ
  obtain ⟨m, nx⟩ := σ
  induction m with
  | nil => intro _ a o h; cases h
  | cons p rest ih =>
    intro hwf a o h
    obtain ⟨a0, o0⟩ := p
    rw [storeWF, List.all_cons, Bool.and_eq_true] at hwf
    rw [heapGet] at h
    by_cases h0 : a0 = a
    · subst h0; exact Nat.lt_of_lt_of_le (by simpa using hwf.1) (le_refl _)
    · rw [if_neg h0] at h
      exact ih (by rw [storeWF]; exact hwf.2) h

theorem heapGet_ge_none {σ : Store} (hwf : storeWF σ = true) {a : Nat}
    (ha : σ.2 ≤ a) : heapGet σ.1 a = none := by
  rcases hg : heapGet σ.1 a with _ | o
  · rfl
  · exact absurd (storeWF_lt hwf hg) (Nat.not_lt.mpr ha)

theorem storeWF_heapAlloc {σ : Store} (hwf : storeWF σ = true) (o : HObj) :
    storeWF (heapAlloc σ o) = true := by
  rw [heapAlloc, storeWF, List.all_cons, Bool.and_eq_true]
  constructor
  · simp
  · rw [storeWF] at hwf
    rw [List.all_eq_true] at hwf ⊢
    intro p hp
    have := hwf p hp
    simp only [decide_eq_true_eq] at this ⊢
    exact Nat.lt_succ_of_lt this

theorem heapSet_keys : ∀ {m : List (Nat × HObj)} {c : Nat} {o : HObj} {N : Nat},
    (∀ p ∈ m, p.1 < N) → c < N → ∀ p ∈ heapSet m c o, p.1 < N := by
  intro m
  induction m with
  | nil =>
    intro c o N _ hc p hp
    rw [heapSet, List.mem_singleton] at hp
    subst hp
    exact hc
  | cons q rest ih =>
    intro c o N hm hc p hp
    obtain ⟨a0, o0⟩ := q
    rw [heapSet] at hp
    by_cases h0 : a0 = c
    · rw [if_pos h0] at hp
      rcases List.mem_cons.mp hp with h | h
      · subst h; exact h0 ▸ hc
      · exact hm p (List.mem_cons_of_mem _ h)
    · rw [if_neg h0] at hp
      rcases List.mem_cons.mp hp with h | h
      · subst h; exact hm _ (List.mem_cons_self _ _)
      · exact ih (fun q hq => hm q (List.mem_cons_of_mem _ hq)) hc p h

theorem storeWF_heapSet {σ : Store} (hwf : storeWF σ = true) {c : Nat}
    (hc : c < σ.2) (o : HObj) : storeWF (heapSet σ.1 c o, σ.2) = true := by
  rw [storeWF, List.all_eq_true]
  intro p hp
  rw [storeWF, List.all_eq_true] at hwf
  simp only [decide_eq_true_eq] at hwf ⊢
  exact heapSet_keys (fun q hq => hwf q hq) hc p hp

theorem frameLe_refl (n : Nat) (σ : Store) : frameLe n σ σ := fun _ _ => rfl

theorem frameLe_trans {n m : Nat} {σ σ2 σ3 : Store} (h1 : frameLe n σ σ2)
    (h2 : frameLe m σ2 σ3) (hnm : n ≤ m) : frameLe n σ σ3 :=
  fun a ha => (h2 a (Nat.lt_of_lt_of_le ha hnm)).trans (h1 a ha)

theorem regionClosed_heapAlloc {n : Nat} {σ : Store} (hreg : regionClosed n σ)
    {o : HObj} (ho : ∀ b ∈ objRefs o, n ≤ b) : regionClosed n (heapAlloc σ o) := by
  intro a o2 ha hget b hb
  rw [heapAlloc] at hget
  by_cases h0 : σ.2 = a
  · rw [heapGet, if_pos h0] at hget
    cases hget
    exact ho b hb
  · rw [heapGet_cons_ne h0] at hget
    exact hreg a o2 ha hget b hb

theorem regionClosed_heapSet {n : Nat} {σ : Store} (hreg : regionClosed n σ)
    {c : Nat} {o : HObj} (ho : ∀ b ∈ objRefs o, n ≤ b) :
    regionClosed n (heapSet σ.1 c o, σ.2) := by
  intro a o2 ha hget b hb
  by_cases h0 : c = a
  · subst h0
    rw [heapGet_heapSet_self] at hget
    cases hget
    exact ho b hb
  · rw [heapGet_heapSet_ne h0] at hget
    exact hreg a o2 ha hget b hb

theorem regionClosed_init {σ : Store} (hwf : storeWF σ = true) :
    regionClosed σ.2 σ := by
  intro a o ha hget _ _
  rw [heapGet_ge_none hwf ha] at hget
  cases hget

/-! ### Frame and freshness of the deep copy -/

/-- Common postcondition of every heap operation: well-formedness is kept,
the counter grows, pre-existing objects are untouched, and the fresh
region stays closed. -/
def CopyPost (n : Nat) (σ σ2 : Store) : Prop :=
  storeWF σ2 = true ∧ σ.2 ≤ σ2.2 ∧ frameLe σ.2 σ σ2 ∧ regionClosed n σ2

theorem CopyPost_refl (n : Nat) (σ : Store) (hwf : storeWF σ = true)
    (hreg : regionClosed n σ) : CopyPost n σ σ :=
  ⟨hwf, le_refl _, frameLe_refl _ _, hreg⟩

theorem CopyPost_trans {n : Nat} {σ σ2 σ3 : Store}
    (h1 : CopyPost n σ σ2) (h2 : CopyPost n σ2 σ3) : CopyPost n σ σ3 :=
  ⟨h2.1, le_trans h1.2.1 h2.2.1, frameLe_trans h1.2.2.1 h2.2.2.1 h1.2.1, h2.2.2.2⟩

/-- The specification of one copy step `f`, for the helper lemmas. -/
def CopySpec (n : Nat) (f : Store → HVal → Option (Store × HVal)) : Prop :=
  ∀ (σ : Store) (v : HVal) (σ2 : Store) (v2 : HVal),
    f σ v = some (σ2, v2) → storeWF σ = true → n ≤ σ.2 → regionClosed n σ →
    CopyPost n σ σ2 ∧ (∀ a2, v2 = HVal.ref a2 → σ.2 ≤ a2 ∧ a2 < σ2.2)

theorem hCopyEntriesWith_spec {n : Nat} {f : Store → HVal → Option (Store × HVal)}
    (hf : CopySpec n f) :
    ∀ (es : List (String × HVal)) (σ : Store) (σ2 : Store) (es2 : List (String × HVal)),
    hCopyEntriesWith f σ es = some (σ2, es2) → storeWF σ = true → n ≤ σ.2 →
    regionClosed n σ →
    CopyPost n σ σ2 ∧ (∀ p ∈ es2, ∀ a2, p.2 = HVal.ref a2 → σ.2 ≤ a2 ∧ a2 < σ2.2) := by
  intro es
  induction es with
  | nil =>
    intro σ σ2 es2 h hwf hn hreg
    rw [hCopyEntriesWith] at h
    cases h
    exact ⟨CopyPost_refl n σ hwf hreg, fun p hp => absurd hp (List.not_mem_nil p)⟩
  | cons q rest ih =>
    intro σ σ2 es2 h hwf hn hreg
    obtain ⟨k, v⟩ := q
    rw [hCopyEntriesWith] at h
    rcases h1 : f σ v with _ | ⟨σa, v2⟩
    · rw [h1] at h; exact Option.noConfusion h
    rw [h1] at h
    dsimp only at h
    rcases h2 : hCopyEntriesWith f σa rest with _ | σbvs
    · rw [h2] at h; exact Option.noConfusion h
    obtain ⟨σb, vs⟩ := σbvs
    rw [h2] at h
    cases h
    obtain ⟨post1, fresh1⟩ := hf σ v σa v2 h1 hwf hn hreg
    obtain ⟨post2, fresh2⟩ := ih σa _ _ h2 post1.1 (le_trans hn post1.2.1) post1.2.2.2
    refine ⟨CopyPost_trans post1 post2, ?_⟩
    intro p hp a2 hpa
    rcases List.mem_cons.mp hp with h | h
    · subst h
      obtain ⟨ha1, ha2⟩ := fresh1 a2 hpa
      exact ⟨ha1, Nat.lt_of_lt_of_le ha2 post2.2.1⟩
    · obtain ⟨ha1, ha2⟩ := fresh2 p h a2 hpa
      exact ⟨le_trans post1.2.1 ha1, ha2⟩

theorem hCopyListWith_spec {n : Nat} {f : Store → HVal → Option (Store × HVal)}
    (hf : CopySpec n f) :
    ∀ (xs : List HVal) (σ : Store) (σ2 : Store) (xs2 : List HVal),
    hCopyListWith f σ xs = some (σ2, xs2) → storeWF σ = true → n ≤ σ.2 →
    regionClosed n σ →
    CopyPost n σ σ2 ∧ (∀ v ∈ xs2, ∀ a2, v = HVal.ref a2 → σ.2 ≤ a2 ∧ a2 < σ2.2) := by
  intro xs
  induction xs with
  | nil =>
    intro σ σ2 xs2 h hwf hn hreg
    rw [hCopyListWith] at h
    cases h
    exact ⟨CopyPost_refl n σ hwf hreg, fun v hv => absurd hv (List.not_mem_nil v)⟩
  | cons v rest ih =>
    intro σ σ2 xs2 h hwf hn hreg
    rw [hCopyListWith] at h
    rcases h1 : f σ v with _ | ⟨σa, v2⟩
    · rw [h1] at h; exact Option.noConfusion h
    rw [h1] at h
    dsimp only at h
    rcases h2 : hCopyListWith f σa rest with _ | σbvs
    · rw [h2] at h; exact Option.noConfusion h
    obtain ⟨σb, vs⟩ := σbvs
    rw [h2] at h
    cases h
    obtain ⟨post1, fresh1⟩ := hf σ v σa v2 h1 hwf hn hreg
    obtain ⟨post2, fresh2⟩ := ih σa _ _ h2 post1.1 (le_trans hn post1.2.1) post1.2.2.2
    refine ⟨CopyPost_trans post1 post2, ?_⟩
    intro w hw a2 hwa
    rcases List.mem_cons.mp hw with h | h
    · subst h
      obtain ⟨ha1, ha2⟩ := fresh1 a2 hwa
      exact ⟨ha1, Nat.lt_of_lt_of_le ha2 post2.2.1⟩
    · obtain ⟨ha1, ha2⟩ := fresh2 w h a2 hwa
      exact ⟨le_trans post1.2.1 ha1, ha2⟩

theorem objRefs_dict_mem {es : List (String × HVal)} {b : Nat}
    (hb : b ∈ objRefs (HObj.dict es)) : ∃ p ∈ es, p.2 = HVal.ref b := by
  rw [objRefs] at hb
  obtain ⟨p, hp, hfp⟩ := List.mem_filterMap.mp hb
  refine ⟨p, hp, ?_⟩
  rcases p with ⟨k, v⟩
  rcases v with q | s | bb | a <;> simp_all

theorem objRefs_list_mem {xs : List HVal} {b : Nat}
    (hb : b ∈ objRefs (HObj.list xs)) : ∃ v ∈ xs, v = HVal.ref b := by
  rw [objRefs] at hb
  obtain ⟨v, hv, hfv⟩ := List.mem_filterMap.mp hb
  refine ⟨v, hv, ?_⟩
  rcases v with q | s | bb | a <;> simp_all

theorem hDeepCopy_spec : ∀ (fuel : Nat) {n : Nat}, CopySpec n (hDeepCopy fuel) := by
  intro fuel
  induction fuel with
  | zero => intro n σ v σ2 v2 h _ _ _; exact Option.noConfusion h
  | succ fuel ih =>
    intro n σ v σ2 v2 h hwf hn hreg
    rcases v with q | s | b | a
    · cases h
      exact ⟨CopyPost_refl n σ hwf hreg, fun a2 ha => HVal.noConfusion ha⟩
    · cases h
      exact ⟨CopyPost_refl n σ hwf hreg, fun a2 ha => HVal.noConfusion ha⟩
    · cases h
      exact ⟨CopyPost_refl n σ hwf hreg, fun a2 ha => HVal.noConfusion ha⟩
    rw [hDeepCopy] at h
    dsimp only at h
    rcases hga : heapGet σ.1 a with _ | o
    · rw [hga] at h; exact Option.noConfusion h
    rcases o with es | xs
    · rw [hga] at h
      dsimp only at h
      rcases hce : hCopyEntriesWith (hDeepCopy fuel) σ es with _ | pr
      · rw [hce] at h; exact Option.noConfusion h
      obtain ⟨σc, es2⟩ := pr
      rw [hce] at h
      dsimp only at h
      cases h
      obtain ⟨post, freshEs⟩ := hCopyEntriesWith_spec ih es σ σc es2 hce hwf hn hreg
      have hrefs : ∀ b2 ∈ objRefs (HObj.dict es2), n ≤ b2 := by
        intro b2 hb2
        obtain ⟨p, hp, hpe⟩ := objRefs_dict_mem hb2
        exact le_trans hn (freshEs p hp b2 hpe).1
      refine ⟨⟨storeWF_heapAlloc post.1 _, ?_, ?_, regionClosed_heapAlloc post.2.2.2 hrefs⟩, ?_⟩
      · exact le_trans post.2.1 (Nat.le_succ _)
      · intro a2 ha2
        rw [heapAlloc]
        rw [show ((σc.2, HObj.dict es2) :: σc.1, σc.2 + 1).1 = (σc.2, HObj.dict es2) :: σc.1 from rfl]
        rw [heapGet_cons_ne (by exact fun hx => absurd (hx ▸ Nat.lt_of_lt_of_le ha2 post.2.1) (lt_irrefl _)) _]
        exact post.2.2.1 a2 ha2
      · intro a2 ha2
        cases ha2
        exact ⟨post.2.1, Nat.lt_succ_self _⟩
    · rw [hga] at h
      dsimp only at h
      rcases hce : hCopyListWith (hDeepCopy fuel) σ xs with _ | pr
      · rw [hce] at h; exact Option.noConfusion h
      obtain ⟨σc, xs2⟩ := pr
      rw [hce] at h
      dsimp only at h
      cases h
      obtain ⟨post, freshXs⟩ := hCopyListWith_spec ih xs σ σc xs2 hce hwf hn hreg
      have hrefs : ∀ b2 ∈ objRefs (HObj.list xs2), n ≤ b2 := by
        intro b2 hb2
        obtain ⟨w, hw, hwe⟩ := objRefs_list_mem hb2
        exact le_trans hn (freshXs w hw b2 hwe).1
      refine ⟨⟨storeWF_heapAlloc post.1 _, ?_, ?_, regionClosed_heapAlloc post.2.2.2 hrefs⟩, ?_⟩
      · exact le_trans post.2.1 (Nat.le_succ _)
      · intro a2 ha2
        rw [heapAlloc]
        rw [show ((σc.2, HObj.list xs2) :: σc.1, σc.2 + 1).1 = (σc.2, HObj.list xs2) :: σc.1 from rfl]
        rw [heapGet_cons_ne (by exact fun hx => absurd (hx ▸ Nat.lt_of_lt_of_le ha2 post.2.1) (lt_irrefl _)) _]
        exact post.2.2.1 a2 ha2
      · intro a2 ha2
        cases ha2
        exact ⟨post.2.1, Nat.lt_succ_self _⟩

theorem dictSetH_mem : ∀ {es : List (String × HVal)} {key : String} {v : HVal}
    {p : String × HVal}, p ∈ dictSetH es key v → p ∈ es ∨ p.2 = v := by
  intro es
  induction es with
  | nil =>
    intro key v p hp
    rw [dictSetH, List.mem_singleton] at hp
    exact Or.inr (by rw [hp])
  | cons q rest ih =>
    intro key v p hp
    obtain ⟨k, w⟩ := q
    rw [dictSetH] at hp
    by_cases h0 : k = key
    · rw [if_pos h0] at hp
      rcases List.mem_cons.mp hp with h | h
      · exact Or.inr (by rw [h])
      · exact Or.inl (List.mem_cons_of_mem _ h)
    · rw [if_neg h0] at hp
      rcases List.mem_cons.mp hp with h | h
      · exact Or.inl (h ▸ List.mem_cons_self _ _)
      · rcases ih h with h2 | h2
        · exact Or.inl (List.mem_cons_of_mem _ h2)
        · exact Or.inr h2

theorem objRefs_dict_of_mem {es : List (String × HVal)} {p : String × HVal}
    (hp : p ∈ es) {b : Nat} (hpe : p.2 = HVal.ref b) : b ∈ objRefs (HObj.dict es) := by
  rw [objRefs]
  exact List.mem_filterMap.mpr ⟨p, hp, by rw [hpe]⟩

def MergeSpec (n : Nat) (f : Store → Nat → Nat → Option (Store × Nat)) : Prop :=
  ∀ (σ : Store) (b u : Nat) (σ2 : Store) (r : Nat),
    f σ b u = some (σ2, r) → storeWF σ = true → n ≤ σ.2 → regionClosed n σ →
    CopyPost n σ σ2 ∧ σ.2 ≤ r ∧ r < σ2.2

theorem hMergeLoopWith_spec {n : Nat} {f : Store → Nat → Nat → Option (Store × Nat)}
    {dc : Store → HVal → Option (Store × HVal)}
    (hf : MergeSpec n f) (hdc : CopySpec n dc) :
    ∀ (items : List (String × HVal)) (σ : Store) (res : Nat) (σ2 : Store),
    hMergeLoopWith f dc σ res items = some σ2 →
    storeWF σ = true → n ≤ σ.2 → regionClosed n σ → n ≤ res → res < σ.2 →
    storeWF σ2 = true ∧ σ.2 ≤ σ2.2 ∧ frameExcept σ.2 res σ σ2 ∧ regionClosed n σ2 := by
  intro items
  induction items with
  | nil =>
    intro σ res σ2 h hwf hn hreg hres1 hres2
    rw [hMergeLoopWith] at h
    cases h
    exact ⟨hwf, le_refl _, fun a _ _ => rfl, hreg⟩
  | cons q rest ih =>
    intro σ res σ2 h hwf hn hreg hres1 hres2
    obtain ⟨key, value⟩ := q
    rw [hMergeLoopWith] at h
    rcases hres : heapGet σ.1 res with _ | o
    · rw [hres] at h; exact Option.noConfusion h
    rcases o with resE | xs
    · rw [hres] at h
      dsimp only at h
      have helse :
          (match dc σ value with
           | some (σc, v2) =>
             match heapGet σc.1 res with
             | some (HObj.dict resE2) =>
               hMergeLoopWith f dc
                 ((heapSet σc.1 res (HObj.dict (dictSetH resE2 key v2)), σc.2)) res rest
             | _ => none
           | none => none) = some σ2 →
          storeWF σ2 = true ∧ σ.2 ≤ σ2.2 ∧ frameExcept σ.2 res σ σ2 ∧ regionClosed n σ2 := by
        intro hb
        rcases hdcv : dc σ value with _ | pr
        · rw [hdcv] at hb; exact Option.noConfusion hb
        obtain ⟨σc, v2⟩ := pr
        rw [hdcv] at hb
        dsimp only at hb
        obtain ⟨postc, freshv⟩ := hdc σ value σc v2 hdcv hwf hn hreg
        rcases hget2 : heapGet σc.1 res with _ | o2
        · rw [hget2] at hb; exact Option.noConfusion hb
        rcases o2 with resE2 | xs2
        rotate_left
        · rw [hget2] at hb; exact Option.noConfusion hb
        rw [hget2] at hb
        dsimp only at hb
        have hres2c : res < σc.2 := Nat.lt_of_lt_of_le hres2 postc.2.1
        have hwf2 : storeWF (heapSet σc.1 res (HObj.dict (dictSetH resE2 key v2)), σc.2)
            = true := storeWF_heapSet postc.1 hres2c _
        have hreg2 : regionClosed n
            (heapSet σc.1 res (HObj.dict (dictSetH resE2 key v2)), σc.2) := by
          refine regionClosed_heapSet postc.2.2.2 ?_
          intro b hb2
          obtain ⟨p, hp, hpe⟩ := objRefs_dict_mem hb2
          rcases dictSetH_mem hp with hmem | hval
          · exact postc.2.2.2 res _ hres1 hget2 b (objRefs_dict_of_mem hmem hpe)
          · exact le_trans hn (freshv b (hval.symm.trans hpe)).1
        obtain ⟨w1, w2, w3, w4⟩ := ih _ res σ2 hb hwf2 (le_trans hn postc.2.1) hreg2 hres1 hres2c
        refine ⟨w1, le_trans postc.2.1 w2, ?_, w4⟩
        intro a ha hane
        have e1 : heapGet σ2.1 a
            = heapGet (heapSet σc.1 res (HObj.dict (dictSetH resE2 key v2))) a :=
          w3 a (Nat.lt_of_lt_of_le ha postc.2.1) hane
        rw [e1, heapGet_heapSet_ne (fun hx => hane (hx.symm)) _]
        exact postc.2.2.1 a ha
      rcases hrk : dictGetH resE key with _ | rv
      · rw [hrk] at h
        dsimp only at h
        exact helse h
      rw [hrk] at h
      dsimp only at h
      by_cases hdd : (isDictRef σ rv && isDictRef σ value) = true
      · rw [if_pos hdd] at h
        rw [Bool.and_eq_true] at hdd
        obtain ⟨hd1, hd2⟩ := hdd
        rcases rv with q1 | s1 | b1 | ra
        · simp [isDictRef] at hd1
        · simp [isDictRef] at hd1
        · simp [isDictRef] at hd1
        rcases value with q1 | s1 | b1 | va
        · simp [isDictRef] at hd2
        · simp [isDictRef] at hd2
        · simp [isDictRef] at hd2
        dsimp only at h
        rcases hm : f σ ra va with _ | pr
        · rw [hm] at h; exact Option.noConfusion h
        obtain ⟨σm, r2⟩ := pr
        rw [hm] at h
        dsimp only at h
        obtain ⟨postm, hr2a, hr2b⟩ := hf σ ra va σm r2 hm hwf hn hreg
        rcases hget2 : heapGet σm.1 res with _ | o2
        · rw [hget2] at h; exact Option.noConfusion h
        rcases o2 with resE2 | xs2
        rotate_left
        · rw [hget2] at h; exact Option.noConfusion h
        rw [hget2] at h
        dsimp only at h
        have hres2m : res < σm.2 := Nat.lt_of_lt_of_le hres2 postm.2.1
        have hwf2 : storeWF (heapSet σm.1 res (HObj.dict (dictSetH resE2 key (HVal.ref r2))),
            σm.2) = true := storeWF_heapSet postm.1 hres2m _
        have hreg2 : regionClosed n
            (heapSet σm.1 res (HObj.dict (dictSetH resE2 key (HVal.ref r2))), σm.2) := by
          refine regionClosed_heapSet postm.2.2.2 ?_
          intro b hb2
          obtain ⟨p, hp, hpe⟩ := objRefs_dict_mem hb2
          rcases dictSetH_mem hp with hmem | hval
          · exact postm.2.2.2 res _ hres1 hget2 b (objRefs_dict_of_mem hmem hpe)
          · have : HVal.ref r2 = HVal.ref b := hval.symm.trans hpe
            cases this
            exact le_trans hn hr2a
        obtain ⟨w1, w2, w3, w4⟩ := ih _ res σ2 h hwf2 (le_trans hn postm.2.1) hreg2 hres1 hres2m
        refine ⟨w1, le_trans postm.2.1 w2, ?_, w4⟩
        intro a ha hane
        have e1 : heapGet σ2.1 a
            = heapGet (heapSet σm.1 res (HObj.dict (dictSetH resE2 key (HVal.ref r2)))) a :=
          w3 a (Nat.lt_of_lt_of_le ha postm.2.1) hane
        rw [e1, heapGet_heapSet_ne (fun hx => hane (hx.symm)) _]
        exact postm.2.2.1 a ha
      · rw [if_neg hdd] at h
        exact helse h
    · rw [hres] at h; exact Option.noConfusion h

theorem hMergeSettings_spec : ∀ (fuel : Nat) {n : Nat}, MergeSpec n (hMergeSettings fuel) := by
  intro fuel
  induction fuel with
  | zero => intro n σ b u σ2 r h _ _ _; exact Option.noConfusion h
  | succ fuel ih =>
    intro n σ b u σ2 r h hwf hn hreg
    rw [hMergeSettings] at h
    beta_reduce at h
    rcases hdc : hDeepCopy (Nat.succ fuel) σ (HVal.ref b) with _ | pr
    · rw [hdc] at h; exact Option.noConfusion h
    obtain ⟨σ1, v1⟩ := pr
    rw [hdc] at h
    rcases v1 with q | s | bb | res
    · exact Option.noConfusion h
    · exact Option.noConfusion h
    · exact Option.noConfusion h
    dsimp only at h
    obtain ⟨postd, freshd⟩ := hDeepCopy_spec (Nat.succ fuel) σ (HVal.ref b) σ1 _ hdc hwf hn hreg
    obtain ⟨hresa, hresb⟩ := freshd res rfl
    rcases hgu : heapGet σ1.1 u with _ | o
    · rw [hgu] at h; exact Option.noConfusion h
    rcases o with updE | xs
    rotate_left
    · rw [hgu] at h; exact Option.noConfusion h
    rw [hgu] at h
    dsimp only at h
    rcases hloop : hMergeLoopWith (hMergeSettings fuel) (hDeepCopy (Nat.succ fuel)) σ1 res updE
        with _ | σl
    · rw [hloop] at h; exact Option.noConfusion h
    rw [hloop] at h
    dsimp only at h
    cases h
    obtain ⟨w1, w2, w3, w4⟩ := hMergeLoopWith_spec ih (hDeepCopy_spec (Nat.succ fuel))
      updE σ1 _ _ hloop postd.1 (le_trans hn postd.2.1) postd.2.2.2
      (le_trans hn hresa) hresb
    refine ⟨⟨w1, le_trans postd.2.1 w2, ?_, w4⟩, hresa, Nat.lt_of_lt_of_le hresb w2⟩
    intro a ha
    have e1 : heapGet σ2.1 a = heapGet σ1.1 a :=
      w3 a (Nat.lt_of_lt_of_le ha postd.2.1)
        (fun hx => absurd (hx ▸ ha) (Nat.not_lt.mpr hresa))
    rw [e1]
    exact postd.2.2.1 a ha

theorem hFoldMerge_frame : ∀ (layers : List Nat) (fuel : Nat) {n : Nat} (σ : Store)
    (start : Nat) (σ2 : Store) (r : Nat),
    hFoldMerge fuel σ start layers = some (σ2, r) →
    storeWF σ = true → n ≤ σ.2 → regionClosed n σ →
    CopyPost n σ σ2 := by
  intro layers
  induction layers with
  | nil =>
    intro fuel n σ start σ2 r h hwf hn hreg
    rw [hFoldMerge] at h
    cases h
    exact CopyPost_refl n σ hwf hreg
  | cons l rest ih =>
    intro fuel n σ start σ2 r h hwf hn hreg
    rw [hFoldMerge] at h
    rcases hm : hMergeSettings fuel σ start l with _ | pr
    · rw [hm] at h; exact Option.noConfusion h
    obtain ⟨σm, rm⟩ := pr
    rw [hm] at h
    dsimp only at h
    obtain ⟨postm, _, _⟩ := hMergeSettings_spec fuel σ start l σm rm hm hwf hn hreg
    exact CopyPost_trans postm
      (ih fuel σm rm σ2 r h postm.1 (le_trans hn postm.2.1) postm.2.2.2)

/-- Heap reachability: the addresses reachable from a root address. -/
inductive Reach (σ : Store) : Nat → Nat → Prop where
  | refl : ∀ a, Reach σ a a
  | step : ∀ a b c o, Reach σ a b → heapGet σ.1 b = some o → c ∈ objRefs o →
      Reach σ a c

theorem Reach_ge {n : Nat} {σ : Store} (hreg : regionClosed n σ) {r : Nat}
    (hr : n ≤ r) : ∀ {a : Nat}, Reach σ r a → n ≤ a := by
  intro a h
  induction h with
  | refl => exact hr
  | step b c o hreach hget hc ih2 => exact hreg b o ih2 hget c hc

/-- C2: non-mutation and freshness of `_merge_settings` on the heap model:
every object allocated before the call holds the same content afterwards
(base, update and every layer are structurally unchanged), the returned
dict is a fresh allocation, nothing reachable from it is a pre-existing
object (no aliasing of a mutable input sub-structure), and the layer fold
of `generate_adaptive_config` likewise mutates no pre-existing object. -/
theorem merge_settings_non_mutation (fuel : Nat) (σ : Store) (base upd start : Nat)
    (layers : List Nat) (σ2 σ3 : Store) (r r3 : Nat)
    (hwf : storeWF σ = true)
    (hm : hMergeSettings fuel σ base upd = some (σ2, r))
    (hf : hFoldMerge fuel σ start layers = some (σ3, r3)) :
    (∀ a, a < σ.2 → heapGet σ2.1 a = heapGet σ.1 a)
    ∧ σ.2 ≤ r
    ∧ (∀ a, Reach σ2 r a → σ.2 ≤ a)
    ∧ (∀ a, a < σ.2 → heapGet σ3.1 a = heapGet σ.1 a) := by
  obtain ⟨postm, hra, hrb⟩ := hMergeSettings_spec fuel σ base upd σ2 r hm hwf (le_refl _)
    (regionClosed_init hwf)
  have postf := hFoldMerge_frame layers fuel σ start σ3 r3 hf hwf (le_refl _)
    (regionClosed_init hwf)
  exact ⟨postm.2.2.1, hra, fun a hr => Reach_ge postm.2.2.2 hra hr, postf.2.2.1⟩

def c2Sigma : Store :=
  ([(0, .dict [("a", .num 1), ("b", .ref 1)]),
    (1, .dict [("x", .num 5)]),
    (2, .dict [("a", .num 2), ("b", .ref 1)])], 3)

def c2Merged : Store × Nat := (hMergeSettings 6 c2Sigma 0 2).getD (c2Sigma, 0)

def c2Folded : Store × Nat := (hFoldMerge 6 c2Sigma 0 [2, 2]).getD (c2Sigma, 0)

theorem merge_settings_non_mutation_witness :
    (∀ a, a < c2Sigma.2 → heapGet c2Merged.1.1 a = heapGet c2Sigma.1 a)
    ∧ c2Sigma.2 ≤ c2Merged.2
    ∧ (∀ a, Reach c2Merged.1 c2Merged.2 a → c2Sigma.2 ≤ a)
    ∧ (∀ a, a < c2Sigma.2 → heapGet c2Folded.1.1 a = heapGet c2Sigma.1 a) :=
  merge_settings_non_mutation 6 c2Sigma 0 2 0 [2, 2] c2Merged.1 c2Folded.1
    c2Merged.2 c2Folded.2 rfl rfl rfl
